import Mathlib

/-!
A shallow embedding of the Chinese chess (Xiangqi) engine implemented in
`src/Chinese_chess_with_elysia.cpp`, together with theorems about the board,
the pseudo-legal move generator, the evaluator, the win check and the
alpha-beta search (sequential and parallel root split).

Machine `int32_t` values are modelled as `Int`; the evaluator, whose sums can
overflow, reduces every addition with `wrap32` (two's-complement wrap-around).
The C++ `std::string` board storage is modelled as `List Char`, the
`std::deque` history as a `List` grown at the tail.
-/

/-- `enum class Side { up, down, extra }` from the source. -/
inductive Side where
  | up
  | down
  | extra
deriving DecidableEq, Repr

/-- `enum class Type` from the source (renamed: `Type` is a Lean keyword). -/
inductive PieceType where
  | pawn
  | cannon
  | rook
  | knight
  | bishop
  | advisor
  | general
  | empty
  | out
deriving DecidableEq, Repr

/-- `using Piece = char;` -/
abbrev Piece := Char

def P_UP : Piece := 'P'

def P_UC : Piece := 'C'

def P_UR : Piece := 'R'

def P_UN : Piece := 'N'

def P_UB : Piece := 'B'

def P_UA : Piece := 'A'

def P_UG : Piece := 'G'

def P_DP : Piece := 'p'

def P_DC : Piece := 'c'

def P_DR : Piece := 'r'

def P_DN : Piece := 'n'

def P_DB : Piece := 'b'

def P_DA : Piece := 'a'

def P_DG : Piece := 'g'

def P_EE : Piece := '.'

def P_EO : Piece := '#'

/-- `piece_side`: the `switch` over the fourteen piece characters. -/
def piece_side (p : Piece) : Side :=
  if p = P_UP ∨ p = P_UC ∨ p = P_UR ∨ p = P_UN ∨ p = P_UB ∨ p = P_UA ∨ p = P_UG then
    Side.up
  else if p = P_DP ∨ p = P_DC ∨ p = P_DR ∨ p = P_DN ∨ p = P_DB ∨ p = P_DA ∨ p = P_DG then
    Side.down
  else
    Side.extra

/-- `piece_type`: the if-chain over the piece characters. -/
def piece_type (p : Piece) : PieceType :=
  if p = P_UP ∨ p = P_DP then PieceType.pawn
  else if p = P_UC ∨ p = P_DC then PieceType.cannon
  else if p = P_UR ∨ p = P_DR then PieceType.rook
  else if p = P_UN ∨ p = P_DN then PieceType.knight
  else if p = P_UB ∨ p = P_DB then PieceType.bishop
  else if p = P_UA ∨ p = P_DA then PieceType.advisor
  else if p = P_UG ∨ p = P_DG then PieceType.general
  else if p = P_EE then PieceType.empty
  else PieceType.out

/-- `piece_side_reverse` (the `extra` case is behind an `assert` in the
source; the C++ else-branch returns `up` for it). -/
def piece_side_reverse (s : Side) : Side :=
  match s with
  | Side.up => Side.down
  | Side.down => Side.up
  | Side.extra => Side.up

/-- `struct Pos` with two `int32_t` coordinates. -/
structure Pos where
  row : Int
  col : Int
deriving DecidableEq, Repr

/-- `struct Move` (fields renamed: `from` is a Lean keyword). -/
structure Move where
  fromPos : Pos
  toPos : Pos
deriving DecidableEq, Repr

/-- `struct HistoryNode { Move mv; Piece fp; Piece tp; }` -/
structure HistoryNode where
  mv : Move
  fp : Piece
  tp : Piece
deriving DecidableEq, Repr

/-- The 14×13 bordered grid plus the move history. -/
structure Board where
  data : List Char
  history : List HistoryNode
deriving DecidableEq, Repr

def row_num : Int := 14

def col_num : Int := 13

def real_row_num : Int := 10

def real_col_num : Int := 9

def row_begin : Int := 2

def col_begin : Int := 2

def row_end : Int := 11

def col_end : Int := 10

def river_up : Int := 6

def river_down : Int := 7

def nine_palace_up_top : Int := 2

def nine_palace_up_bottom : Int := 4

def nine_palace_up_left : Int := 5

def nine_palace_up_right : Int := 7

def nine_palace_down_top : Int := 9

def nine_palace_down_bottom : Int := 11

def nine_palace_down_left : Int := 5

def nine_palace_down_right : Int := 7

/-- Linear index of cell `(r, c)` into the board string (`r * col_num + c`). -/
def posIndex (r c : Int) : Nat := (r * 13 + c).toNat

/-- `Board::get(r, c)`: read of `data[r * col_num + c]`.  Out-of-range reads
(which never occur on bordered boards in the verified paths) default to the
sentinel. -/
def Board.get (b : Board) (r c : Int) : Piece := b.data.getD (posIndex r c) P_EO

/-- `Board::set(r, c, p)`. -/
def Board.set (b : Board) (r c : Int) (p : Piece) : Board :=
  { b with data := b.data.set (posIndex r c) p }

/-- The opening position installed by `Board::clear()`. -/
def openingData : List Char :=
  ("#############" ++
   "#############" ++
   "##RNBAGABNR##" ++
   "##.........##" ++
   "##.C.....C.##" ++
   "##P.P.P.P.P##" ++
   "##.........##" ++
   "##.........##" ++
   "##p.p.p.p.p##" ++
   "##.c.....c.##" ++
   "##.........##" ++
   "##rnbagabnr##" ++
   "#############" ++
   "#############").toList

/-- A freshly constructed board (`Board()` calls `clear()`). -/
def openingBoard : Board := { data := openingData, history := [] }

/-- `Board::clear()`. -/
def Board.clear (_b : Board) : Board := openingBoard

/-- `Board::move`: record `(mv, from-piece, to-piece)` into the history, then
write empty to `from` and the moved piece to `to`. -/
def Board.move (b : Board) (mv : Move) : Board :=
  let fp := b.get mv.fromPos.row mv.fromPos.col
  let tp := b.get mv.toPos.row mv.toPos.col
  let b1 : Board := { b with history := b.history ++ [⟨mv, fp, tp⟩] }
  (b1.set mv.fromPos.row mv.fromPos.col P_EE).set mv.toPos.row mv.toPos.col fp

/-- `Board::undo`: if the history is non-empty, restore both cells from the
last record and pop it; otherwise do nothing. -/
def Board.undo (b : Board) : Board :=
  match b.history.getLast? with
  | none => b
  | some hist =>
      let b1 : Board := { b with history := b.history.dropLast }
      (b1.set hist.mv.fromPos.row hist.mv.fromPos.col hist.fp).set
        hist.mv.toPos.row hist.mv.toPos.col hist.tp

/-- Interior (playable) cells: `row ∈ [row_begin, row_end]`,
`col ∈ [col_begin, col_end]`. -/
def interiorPos (r c : Int) : Prop := 2 ≤ r ∧ r ≤ 11 ∧ 2 ≤ c ∧ c ≤ 10

instance (r c : Int) : Decidable (interiorPos r c) := by
  unfold interiorPos; infer_instance

/-- Well-formed board storage: 14×13 cells, sentinel `'#'` on the whole
two-cell border (the `Board` invariant from the spec's data model). -/
def Board.WF (b : Board) : Prop :=
  b.data.length = 182 ∧
    ∀ r : Nat, r < 14 → ∀ c : Nat, c < 13 →
      ¬ interiorPos (r : Int) (c : Int) → b.get (r : Int) (c : Int) = P_EO

instance (b : Board) : Decidable b.WF := by
  unfold Board.WF; infer_instance

/- ### Pseudo-legal move generation (`MovesGen`) -/

/-- `MovesGen::check_possible_move_and_insert`: keep the destination iff it is
not off-board and not a same-side piece. -/
def check_possible_move_and_insert (cb : Board) (beginRow beginCol endRow endCol : Int) :
    List Move :=
  let beginP := cb.get beginRow beginCol
  let endP := cb.get endRow endCol
  if endP ≠ P_EO ∧ piece_side beginP ≠ piece_side endP then
    [⟨⟨beginRow, beginCol⟩, ⟨endRow, endCol⟩⟩]
  else []

/-- `MovesGen::gen_moves_pawn`. -/
def gen_moves_pawn (cb : Board) (r c : Int) (side : Side) : List Move :=
  match side with
  | Side.up =>
      check_possible_move_and_insert cb r c (r + 1) c ++
        (if r > river_up then
          check_possible_move_and_insert cb r c r (c - 1) ++
            check_possible_move_and_insert cb r c r (c + 1)
         else [])
  | Side.down =>
      check_possible_move_and_insert cb r c (r - 1) c ++
        (if r < river_down then
          check_possible_move_and_insert cb r c r (c - 1) ++
            check_possible_move_and_insert cb r c r (c + 1)
         else [])
  | Side.extra => []

/-- The scanning loop shared verbatim by `gen_moves_cannon_one_direction` and
`gen_moves_rook_one_direction`: ride over empty cells collecting non-capturing
destinations and stop at the first non-empty cell.  Returns the collected
moves, the stopping piece and the stopping cell.  The C++ loop is unbounded
and relies on the sentinel border to stop; here it carries fuel, with the
sentinel as the (unreachable on sentinel-bordered boards) exhaustion value. -/
def ride_loop (cb : Board) (r0 c0 dr dc : Int) :
    Nat → Int → Int → List Move × Piece × Int × Int
  | 0, row, col => ([], P_EO, row, col)
  | n + 1, row, col =>
      let p := cb.get row col
      if p = P_EE then
        let rest := ride_loop cb r0 c0 dr dc n (row + dr) (col + dc)
        (⟨⟨r0, c0⟩, ⟨row, col⟩⟩ :: rest.1, rest.2)
      else ([], p, row, col)

/-- The capture-search loop after the screen in
`gen_moves_cannon_one_direction`: skip empty cells; the first non-empty cell
is returned iff it holds an enemy piece. -/
def cannon_capture_loop (cb : Board) (side : Side) (dr dc : Int) :
    Nat → Int → Int → Option Pos
  | 0, _, _ => none
  | n + 1, row, col =>
      let p := cb.get row col
      if p = P_EE then cannon_capture_loop cb side dr dc n (row + dr) (col + dc)
      else if piece_side p = piece_side_reverse side then some ⟨row, col⟩
      else none

/-- `MovesGen::gen_moves_cannon_one_direction`. -/
def gen_moves_cannon_one_direction (cb : Board) (r c dr dc : Int) (side : Side) :
    List Move :=
  let w := ride_loop cb r c dr dc 13 (r + dr) (c + dc)
  w.1 ++
    (if w.2.1 ≠ P_EO then
      match cannon_capture_loop cb side dr dc 13 (w.2.2.1 + dr) (w.2.2.2 + dc) with
      | some pos => [⟨⟨r, c⟩, pos⟩]
      | none => []
     else [])

/-- `MovesGen::gen_moves_cannon`: up, down, left, right. -/
def gen_moves_cannon (cb : Board) (r c : Int) (side : Side) : List Move :=
  gen_moves_cannon_one_direction cb r c (-1) 0 side ++
    gen_moves_cannon_one_direction cb r c 1 0 side ++
    gen_moves_cannon_one_direction cb r c 0 (-1) side ++
    gen_moves_cannon_one_direction cb r c 0 1 side

/-- `MovesGen::gen_moves_rook_one_direction`. -/
def gen_moves_rook_one_direction (cb : Board) (r c dr dc : Int) (side : Side) :
    List Move :=
  let w := ride_loop cb r c dr dc 13 (r + dr) (c + dc)
  w.1 ++
    (if piece_side w.2.1 = piece_side_reverse side then
      [⟨⟨r, c⟩, ⟨w.2.2.1, w.2.2.2⟩⟩]
     else [])

/-- `MovesGen::gen_moves_rook`: up, down, left, right. -/
def gen_moves_rook (cb : Board) (r c : Int) (side : Side) : List Move :=
  gen_moves_rook_one_direction cb r c (-1) 0 side ++
    gen_moves_rook_one_direction cb r c 1 0 side ++
    gen_moves_rook_one_direction cb r c 0 (-1) side ++
    gen_moves_rook_one_direction cb r c 0 1 side

/-- `MovesGen::gen_moves_knight`: each pair of L-destinations is gated by its
orthogonal leg being empty. -/
def gen_moves_knight (cb : Board) (r c : Int) (_side : Side) : List Move :=
  (if cb.get (r + 1) c = P_EE then
    check_possible_move_and_insert cb r c (r + 2) (c + 1) ++
      check_possible_move_and_insert cb r c (r + 2) (c - 1)
   else []) ++
  (if cb.get (r - 1) c = P_EE then
    check_possible_move_and_insert cb r c (r - 2) (c + 1) ++
      check_possible_move_and_insert cb r c (r - 2) (c - 1)
   else []) ++
  (if cb.get r (c + 1) = P_EE then
    check_possible_move_and_insert cb r c (r + 1) (c + 2) ++
      check_possible_move_and_insert cb r c (r - 1) (c + 2)
   else []) ++
  (if cb.get r (c - 1) = P_EE then
    check_possible_move_and_insert cb r c (r + 1) (c - 2) ++
      check_possible_move_and_insert cb r c (r - 1) (c - 2)
   else [])

/-- `MovesGen::gen_moves_bishop`: two-cell diagonals with empty elephant eye;
only the river-crossing forward pair is guarded by the river test. -/
def gen_moves_bishop (cb : Board) (r c : Int) (side : Side) : List Move :=
  match side with
  | Side.up =>
      (if r + 2 ≤ river_up then
        (if cb.get (r + 1) (c + 1) = P_EE then
          check_possible_move_and_insert cb r c (r + 2) (c + 2)
         else []) ++
        (if cb.get (r + 1) (c - 1) = P_EE then
          check_possible_move_and_insert cb r c (r + 2) (c - 2)
         else [])
       else []) ++
      (if cb.get (r - 1) (c + 1) = P_EE then
        check_possible_move_and_insert cb r c (r - 2) (c + 2)
       else []) ++
      (if cb.get (r - 1) (c - 1) = P_EE then
        check_possible_move_and_insert cb r c (r - 2) (c - 2)
       else [])
  | Side.down =>
      (if r - 2 ≥ river_down then
        (if cb.get (r - 1) (c + 1) = P_EE then
          check_possible_move_and_insert cb r c (r - 2) (c + 2)
         else []) ++
        (if cb.get (r - 1) (c - 1) = P_EE then
          check_possible_move_and_insert cb r c (r - 2) (c - 2)
         else [])
       else []) ++
      (if cb.get (r + 1) (c + 1) = P_EE then
        check_possible_move_and_insert cb r c (r + 2) (c + 2)
       else []) ++
      (if cb.get (r + 1) (c - 1) = P_EE then
        check_possible_move_and_insert cb r c (r + 2) (c - 2)
       else [])
  | Side.extra => []

/-- `MovesGen::gen_moves_advisor`: one-cell diagonals inside the nine-palace. -/
def gen_moves_advisor (cb : Board) (r c : Int) (side : Side) : List Move :=
  match side with
  | Side.up =>
      (if r + 1 ≤ nine_palace_up_bottom ∧ c + 1 ≤ nine_palace_up_right then
        check_possible_move_and_insert cb r c (r + 1) (c + 1)
       else []) ++
      (if r + 1 ≤ nine_palace_up_bottom ∧ c - 1 ≥ nine_palace_up_left then
        check_possible_move_and_insert cb r c (r + 1) (c - 1)
       else []) ++
      (if r - 1 ≥ nine_palace_up_top ∧ c + 1 ≤ nine_palace_up_right then
        check_possible_move_and_insert cb r c (r - 1) (c + 1)
       else []) ++
      (if r - 1 ≥ nine_palace_up_top ∧ c - 1 ≥ nine_palace_up_left then
        check_possible_move_and_insert cb r c (r - 1) (c - 1)
       else [])
  | Side.down =>
      (if r + 1 ≤ nine_palace_down_bottom ∧ c + 1 ≤ nine_palace_down_right then
        check_possible_move_and_insert cb r c (r + 1) (c + 1)
       else []) ++
      (if r + 1 ≤ nine_palace_down_bottom ∧ c - 1 ≥ nine_palace_down_left then
        check_possible_move_and_insert cb r c (r + 1) (c - 1)
       else []) ++
      (if r - 1 ≥ nine_palace_down_top ∧ c + 1 ≤ nine_palace_down_right then
        check_possible_move_and_insert cb r c (r - 1) (c + 1)
       else []) ++
      (if r - 1 ≥ nine_palace_down_top ∧ c - 1 ≥ nine_palace_down_left then
        check_possible_move_and_insert cb r c (r - 1) (c - 1)
       else [])
  | Side.extra => []

/-- The facing-generals scan inside `gen_moves_general`
(`for (row = r ± 1; row within board; row += dr)`): skip empty cells; emit the
row iff the first non-empty cell is the opposing general.  The C++ loop is
bounded by `row_end` (resp. `row_begin`), so the fuel
(`(row_end - r).toNat`, resp. `(r - row_begin).toNat`) makes the recursion
exact, not an approximation. -/
def general_face_loop (cb : Board) (c : Int) (target : Piece) (dr : Int) :
    Nat → Int → Option Int
  | 0, _ => none
  | n + 1, row =>
      let p := cb.get row c
      if p = P_EE then general_face_loop cb c target dr n (row + dr)
      else if p = target then some row
      else none

/-- `MovesGen::gen_moves_general`: one-cell orthogonal steps inside the
nine-palace, plus the flying-general capture. -/
def gen_moves_general (cb : Board) (r c : Int) (side : Side) : List Move :=
  match side with
  | Side.up =>
      (if r + 1 ≤ nine_palace_up_bottom then
        check_possible_move_and_insert cb r c (r + 1) c
       else []) ++
      (if r - 1 ≥ nine_palace_up_top then
        check_possible_move_and_insert cb r c (r - 1) c
       else []) ++
      (if c + 1 ≤ nine_palace_up_right then
        check_possible_move_and_insert cb r c r (c + 1)
       else []) ++
      (if c - 1 ≥ nine_palace_up_left then
        check_possible_move_and_insert cb r c r (c - 1)
       else []) ++
      (match general_face_loop cb c P_DG 1 (row_end - r).toNat (r + 1) with
       | some row => [⟨⟨r, c⟩, ⟨row, c⟩⟩]
       | none => [])
  | Side.down =>
      (if r + 1 ≤ nine_palace_down_bottom then
        check_possible_move_and_insert cb r c (r + 1) c
       else []) ++
      (if r - 1 ≥ nine_palace_down_top then
        check_possible_move_and_insert cb r c (r - 1) c
       else []) ++
      (if c + 1 ≤ nine_palace_down_right then
        check_possible_move_and_insert cb r c r (c + 1)
       else []) ++
      (if c - 1 ≥ nine_palace_down_left then
        check_possible_move_and_insert cb r c r (c - 1)
       else []) ++
      (match general_face_loop cb c P_UG (-1) (r - row_begin).toNat (r - 1) with
       | some row => [⟨⟨r, c⟩, ⟨row, c⟩⟩]
       | none => [])
  | Side.extra => []

/-- `MovesGen::gen_possible_moves`: scan the interior in row-major order and
dispatch on the piece type of every same-side piece. -/
def gen_possible_moves (cb : Board) (side : Side) : List Move :=
  (List.range 10).flatMap (fun ri =>
    (List.range 9).flatMap (fun ci =>
      let r : Int := (ri : Int) + 2
      let c : Int := (ci : Int) + 2
      let p := cb.get r c
      if piece_side p = side then
        match piece_type p with
        | PieceType.pawn => gen_moves_pawn cb r c side
        | PieceType.cannon => gen_moves_cannon cb r c side
        | PieceType.rook => gen_moves_rook cb r c side
        | PieceType.knight => gen_moves_knight cb r c side
        | PieceType.bishop => gen_moves_bishop cb r c side
        | PieceType.advisor => gen_moves_advisor cb r c side
        | PieceType.general => gen_moves_general cb r c side
        | _ => []
      else []))

/- ### Evaluator (`ScoreEvaluator`) -/

def INT32_MIN : Int := -2147483648

def INT32_MAX : Int := 2147483647

/-- Two's-complement wrap of an `int32_t` arithmetic result. -/
def wrap32 (z : Int) : Int := (z + 2147483648) % 4294967296 - 2147483648

/-- The process-scoped weight tables `piece_value_mapping` and
`piece_pos_value_mapping`, loaded from external files at startup and then
read-only; modelled as parameters.  `posv` is indexed by interior-relative
coordinates `(r - row_begin, c - col_begin)`.  (`std::map::operator[]`
default-inserts `0` for keys absent from the files; an instance modelling the
running program maps such pieces to `0`.) -/
structure Tables where
  base : Piece → Int
  posv : Piece → Nat → Nat → Int

/-- `ScoreEvaluator::evaluate`: sum `base + pos` over every non-empty interior
cell.  Each `+=` is an `int32_t` addition, hence the `wrap32`. -/
def evaluate (t : Tables) (b : Board) : Int :=
  (List.range 10).foldl (fun acc (ri : Nat) =>
    (List.range 9).foldl (fun acc2 (ci : Nat) =>
      let p := b.get (Int.ofNat ri + 2) (Int.ofNat ci + 2)
      if p ≠ P_EE then wrap32 (wrap32 (acc2 + t.base p) + t.posv p ri ci)
      else acc2) acc) 0

/- ### Alpha-beta search (`BestMoveGen`) -/

/-- The maximizing-branch loop of `min_max`: `maxValue`/`alpha` updates and
the `alpha ≥ beta` cutoff; `f` is the recursive call at depth
`searchDepth - 1` (the board-restoring `undo` is implicit in the pure
embedding, justified by `move_undo_id`). -/
def max_loop (f : Board → Int → Int → Int) (b : Board) :
    List Move → Int → Int → Int → Int
  | [], maxValue, _, _ => maxValue
  | mv :: rest, maxValue, alpha, beta =>
      let v := f (b.move mv) alpha beta
      let maxValue2 := max maxValue v
      let alpha2 := max alpha maxValue2
      if alpha2 ≥ beta then maxValue2
      else max_loop f b rest maxValue2 alpha2 beta

/-- The minimizing-branch loop of `min_max`. -/
def min_loop (f : Board → Int → Int → Int) (b : Board) :
    List Move → Int → Int → Int → Int
  | [], minValue, _, _ => minValue
  | mv :: rest, minValue, alpha, beta =>
      let v := f (b.move mv) alpha beta
      let minValue2 := min minValue v
      let beta2 := min beta minValue2
      if alpha ≥ beta2 then minValue2
      else min_loop f b rest minValue2 alpha beta2

/-- `BestMoveGen::min_max` (textually identical to
`BestMoveGenParallel::min_max`): depth 0 evaluates; a maximizing node folds
over the down-side moves, a minimizing node over the up-side moves. -/
def min_max (t : Tables) : Nat → Board → Int → Int → Bool → Int
  | 0, b, _, _, _ => evaluate t b
  | d + 1, b, alpha, beta, isMax =>
      if isMax then
        max_loop (fun b2 a2 b3 => min_max t d b2 a2 b3 false) b
          (gen_possible_moves b Side.down) INT32_MIN alpha beta
      else
        min_loop (fun b2 a2 b3 => min_max t d b2 a2 b3 true) b
          (gen_possible_moves b Side.up) INT32_MAX alpha beta

/-- The up-side root loop of `BestMoveGen::gen`: each child gets the full
`(INT32_MIN, INT32_MAX)` window (the root `alpha`/`beta` variables are never
written); the `temp ≤ minValue` update lets a later equal score replace the
best move. -/
def root_loop_up (t : Tables) (d : Nat) (b : Board) :
    List Move → Int → Move → Int × Move
  | [], minValue, best => (minValue, best)
  | mv :: rest, minValue, best =>
      let temp := min_max t d (b.move mv) INT32_MIN INT32_MAX true
      if temp ≤ minValue then root_loop_up t d b rest temp mv
      else root_loop_up t d b rest minValue best

/-- The down-side root loop of `BestMoveGen::gen`. -/
def root_loop_down (t : Tables) (d : Nat) (b : Board) :
    List Move → Int → Move → Int × Move
  | [], maxValue, best => (maxValue, best)
  | mv :: rest, maxValue, best =>
      let temp := min_max t d (b.move mv) INT32_MIN INT32_MAX false
      if temp ≥ maxValue then root_loop_down t d b rest temp mv
      else root_loop_down t d b rest maxValue best

/-- `BestMoveGen::gen` paired with the root score it computes internally
(the C++ returns only the move; `Side::extra` is behind an `assert` and takes
the C++ else-branch). -/
def BestMoveGen_genWithScore (t : Tables) (b : Board) (s : Side) (d : Nat) :
    Int × Move :=
  match s with
  | Side.up =>
      root_loop_up t d b (gen_possible_moves b Side.up) INT32_MAX ⟨⟨0, 0⟩, ⟨0, 0⟩⟩
  | _ =>
      root_loop_down t d b (gen_possible_moves b Side.down) INT32_MIN ⟨⟨0, 0⟩, ⟨0, 0⟩⟩

/-- `BestMoveGen::gen`. -/
def BestMoveGen_gen (t : Tables) (b : Board) (s : Side) (d : Nat) : Move :=
  (BestMoveGen_genWithScore t b s d).2

/-- The optimal root score of the sequential search (`minValue`/`maxValue`
at loop exit in `BestMoveGen::gen`). -/
def BestMoveGen_rootScore (t : Tables) (b : Board) (s : Side) (d : Nat) : Int :=
  (BestMoveGen_genWithScore t b s d).1

/- ### Parallel root split (`BestMoveGenParallel`) -/

/-- The chunking loop of `BestMoveGenParallel::split_vector`: `k` chunks of
`len` elements, then the remainder as the final chunk. -/
def split_vector_aux (l : List Move) (len : Nat) : Nat → List (List Move)
  | 0 => [l]
  | k + 1 => l.take len :: split_vector_aux (l.drop len) len k

/-- `BestMoveGenParallel::split_vector` with `chunkNum = 32`: chunk length
`⌊n/32⌋`, or, if that is zero, `n` one-element chunks.  (On an empty vector
the C++ `size_t` loop bound underflows — undefined behaviour that the caller
avoids; the embedding returns no chunks.) -/
def split_vector (l : List Move) : List (List Move) :=
  if l.length = 0 then []
  else if l.length / 32 = 0 then split_vector_aux l 1 (l.length - 1)
  else split_vector_aux l (l.length / 32) 31

/-- One up-side chunk task of `BestMoveGenParallel::gen`: same loop as the
sequential up root (each task works on a board clone, which the pure
embedding renders as simply reusing `b`). -/
def par_chunk_up (t : Tables) (d : Nat) (b : Board) :
    List Move → Int → Move → Int × Move
  | [], minValue, best => (minValue, best)
  | mv :: rest, minValue, best =>
      let val := min_max t d (b.move mv) INT32_MIN INT32_MAX true
      if val ≤ minValue then par_chunk_up t d b rest val mv
      else par_chunk_up t d b rest minValue best

/-- One down-side chunk task of `BestMoveGenParallel::gen`: the source passes
`isMax = true` here as well, unlike the sequential down root which passes
`false`. -/
def par_chunk_down (t : Tables) (d : Nat) (b : Board) :
    List Move → Int → Move → Int × Move
  | [], maxValue, best => (maxValue, best)
  | mv :: rest, maxValue, best =>
      let val := min_max t d (b.move mv) INT32_MIN INT32_MAX true
      if val ≥ maxValue then par_chunk_down t d b rest val mv
      else par_chunk_down t d b rest maxValue best

/-- The up-side reduction over the chunk results (`bestValues[i] <= minVal`,
so a later equal chunk wins; the C++ accumulates in `float`, exact for every
score below 2^24 in magnitude, modelled in `Int`). -/
def reduce_min : List (Int × Move) → Int → Move → Int × Move
  | [], acc, best => (acc, best)
  | (v, m) :: rest, acc, best =>
      if v ≤ acc then reduce_min rest v m else reduce_min rest acc best

/-- The down-side reduction over the chunk results. -/
def reduce_max : List (Int × Move) → Int → Move → Int × Move
  | [], acc, best => (acc, best)
  | (v, m) :: rest, acc, best =>
      if v ≥ acc then reduce_max rest v m else reduce_max rest acc best

/-- `BestMoveGenParallel::gen` paired with the reduced root value. -/
def BestMoveGenParallel_genWithScore (t : Tables) (b : Board) (s : Side)
    (d : Nat) : Int × Move :=
  match s with
  | Side.up =>
      let chunks := split_vector (gen_possible_moves b Side.up)
      let results := chunks.map (fun ch => par_chunk_up t d b ch INT32_MAX ⟨⟨0, 0⟩, ⟨0, 0⟩⟩)
      reduce_min results INT32_MAX ⟨⟨0, 0⟩, ⟨0, 0⟩⟩
  | _ =>
      let chunks := split_vector (gen_possible_moves b Side.down)
      let results := chunks.map (fun ch => par_chunk_down t d b ch INT32_MIN ⟨⟨0, 0⟩, ⟨0, 0⟩⟩)
      reduce_max results INT32_MIN ⟨⟨0, 0⟩, ⟨0, 0⟩⟩

/-- `BestMoveGenParallel::gen`. -/
def BestMoveGenParallel_gen (t : Tables) (b : Board) (s : Side) (d : Nat) : Move :=
  (BestMoveGenParallel_genWithScore t b s d).2

/-- The optimal root score of the parallel search (the reduced best chunk
value). -/
def BestMoveGenParallel_rootScore (t : Tables) (b : Board) (s : Side) (d : Nat) : Int :=
  (BestMoveGenParallel_genWithScore t b s d).1

/- ### Game frontend helpers (`Game`) -/

/-- `Game::is_input_a_move`: the input has at least 4 characters and its
first four are `file rank file rank` with files `a..i`, ranks `0..9`. -/
def is_input_a_move (input : List Char) : Bool :=
  if input.length < 4 then false
  else
    (decide ('a' ≤ input.getD 0 ' ' ∧ input.getD 0 ' ' ≤ 'i')) &&
    (decide ('0' ≤ input.getD 1 ' ' ∧ input.getD 1 ' ' ≤ '9')) &&
    (decide ('a' ≤ input.getD 2 ' ' ∧ input.getD 2 ' ' ≤ 'i')) &&
    (decide ('0' ≤ input.getD 3 ' ' ∧ input.getD 3 ' ' ≤ '9'))

/-- `Game::input_to_move` (`'a'` is 97, `'0'` is 48). -/
def input_to_move (input : List Char) : Move :=
  let c0 := (((input.getD 0 ' ').toNat : Int))
  let c1 := (((input.getD 1 ' ').toNat : Int))
  let c2 := (((input.getD 2 ' ').toNat : Int))
  let c3 := (((input.getD 3 ' ').toNat : Int))
  { fromPos := { row := row_begin + 9 - (c1 - 48), col := col_begin + (c0 - 97) },
    toPos := { row := row_begin + 9 - (c3 - 48), col := col_begin + (c2 - 97) } }

/-- `Game::check_rule`: the user move must occur in the pseudo-move list. -/
def check_rule (b : Board) (userSide : Side) (mv : Move) : Bool :=
  decide (mv ∈ gen_possible_moves b userSide)

/-- `Game::is_win`: scan the two nine-palaces for the two generals; if both
are alive the game continues, otherwise the queried side wins iff its own
general was found. -/
def is_win (b : Board) (s : Side) : Bool :=
  let upAlive := (List.range 3).any (fun ri => (List.range 3).any (fun ci =>
    b.get ((ri : Int) + 2) ((ci : Int) + 5) == P_UG))
  let downAlive := (List.range 3).any (fun ri => (List.range 3).any (fun ci =>
    b.get ((ri : Int) + 9) ((ci : Int) + 5) == P_DG))
  if upAlive && downAlive then false
  else match s with
    | Side.up => upAlive
    | _ => downAlive

/-- The board-state effect of `Game::handle_move` (console output dropped):
unknown input, foreign pieces and rule violations leave the board unchanged;
otherwise the user move is applied and, unless the user has just won, the
engine's parallel-search reply is applied on top. -/
def handle_move (t : Tables) (searchDepth : Nat) (userSide elysiaSide : Side)
    (b : Board) (input : List Char) : Board :=
  if is_input_a_move input = false then b
  else
    let mv := input_to_move input
    if piece_side (b.get mv.fromPos.row mv.fromPos.col) ≠ userSide then b
    else if check_rule b userSide mv = false then b
    else
      let b1 := b.move mv
      if is_win b1 userSide then b1
      else b1.move (BestMoveGenParallel_gen t b1 elysiaSide searchDepth)

/- ### Concrete boards and tables used by witnesses and counterexamples -/

/-- All-zero weight tables. -/
def zeroTables : Tables := ⟨fun _ => 0, fun _ _ _ => 0⟩

/-- Bordered board with an empty interior. -/
def emptyInteriorBoard : Board :=
  { data :=
      ("#############" ++
       "#############" ++
       "##.........##" ++
       "##.........##" ++
       "##.........##" ++
       "##.........##" ++
       "##.........##" ++
       "##.........##" ++
       "##.........##" ++
       "##.........##" ++
       "##.........##" ++
       "##.........##" ++
       "#############" ++
       "#############").toList,
    history := [] }

/-- A lone up knight at `(6, 6)`, all legs and targets empty. -/
def knightBoard : Board :=
  { data :=
      ("#############" ++
       "#############" ++
       "##.........##" ++
       "##.........##" ++
       "##.........##" ++
       "##.........##" ++
       "##....N....##" ++
       "##.........##" ++
       "##.........##" ++
       "##.........##" ++
       "##.........##" ++
       "##.........##" ++
       "#############" ++
       "#############").toList,
    history := [] }

/-- An up bishop stranded across the river at `(9, 6)`. -/
def bishopAcrossBoard : Board :=
  { data :=
      ("#############" ++
       "#############" ++
       "##.........##" ++
       "##.........##" ++
       "##.........##" ++
       "##.........##" ++
       "##.........##" ++
       "##.........##" ++
       "##.........##" ++
       "##....B....##" ++
       "##.........##" ++
       "##.........##" ++
       "#############" ++
       "#############").toList,
    history := [] }

/-- An up pawn at `(5, 2)` and a down general at `(10, 6)`. -/
def c2Board : Board :=
  { data :=
      ("#############" ++
       "#############" ++
       "##.........##" ++
       "##.........##" ++
       "##.........##" ++
       "##P........##" ++
       "##.........##" ++
       "##.........##" ++
       "##.........##" ++
       "##.........##" ++
       "##....g....##" ++
       "##.........##" ++
       "#############" ++
       "#############").toList,
    history := [] }

/-- Tables rewarding only the down general on square `(9, 6)`
(interior-relative `(7, 4)`). -/
def c2Tables : Tables :=
  ⟨fun _ => 0, fun p ri ci => if p = P_DG ∧ ri = 7 ∧ ci = 4 then 5 else 0⟩

/- ### C1: the flying-general capture is not detected by `is_win` -/

def c1m1 : Move := ⟨⟨8, 6⟩, ⟨7, 6⟩⟩

def c1m2 : Move := ⟨⟨5, 6⟩, ⟨6, 6⟩⟩

def c1m3 : Move := ⟨⟨7, 6⟩, ⟨6, 6⟩⟩

def c1m4 : Move := ⟨⟨4, 3⟩, ⟨4, 2⟩⟩

def c1m5 : Move := ⟨⟨6, 6⟩, ⟨5, 6⟩⟩

def c1m6 : Move := ⟨⟨4, 2⟩, ⟨4, 3⟩⟩

def c1m7 : Move := ⟨⟨5, 6⟩, ⟨5, 5⟩⟩

/-- The flying-general capture: the up general takes the down general. -/
def c1m8 : Move := ⟨⟨2, 6⟩, ⟨11, 6⟩⟩

def c1b1 : Board := openingBoard.move c1m1

def c1b2 : Board := c1b1.move c1m2

def c1b3 : Board := c1b2.move c1m3

def c1b4 : Board := c1b3.move c1m4

def c1b5 : Board := c1b4.move c1m5

def c1b6 : Board := c1b5.move c1m6

def c1b7 : Board := c1b6.move c1m7

/- ### Root selection lemmas -/

/-- The score the sequential root gives an up child: full window, maximizing
(down to move next). -/
def upScore (t : Tables) (d : Nat) (b : Board) (mv : Move) : Int :=
  min_max t d (b.move mv) INT32_MIN INT32_MAX true

/-- The score the sequential root gives a down child: full window,
minimizing (up to move next). -/
def downScore (t : Tables) (d : Nat) (b : Board) (mv : Move) : Int :=
  min_max t d (b.move mv) INT32_MIN INT32_MAX false

/-- The four cardinal directions walked by the cannon and rook generators. -/
def dirOk (dr dc : Int) : Prop :=
  (dr = -1 ∧ dc = 0) ∨ (dr = 1 ∧ dc = 0) ∨ (dr = 0 ∧ dc = -1) ∨ (dr = 0 ∧ dc = 1)

/-- Destination well-formedness of every pseudo-legal move (C4's property). -/
def pseudoMoveWF (b : Board) (s : Side) (mv : Move) : Prop :=
  interiorPos mv.fromPos.row mv.fromPos.col ∧
  piece_side (b.get mv.fromPos.row mv.fromPos.col) = s ∧
  interiorPos mv.toPos.row mv.toPos.col ∧
  piece_side (b.get mv.toPos.row mv.toPos.col) ≠ s ∧
  mv.fromPos ≠ mv.toPos

/- ### C5 machinery: full characterization of the cannon walk -/

/-- Number of consecutive empty cells along `(dr, dc)` starting at
`(row, col)`, looking at most `fuel` cells ahead (an observation helper for
stating C5; the walk loops themselves are embedded above). -/
def scan_empties (b : Board) (dr dc : Int) : Nat → Int → Int → Nat
  | 0, _, _ => 0
  | n + 1, row, col =>
      if b.get row col = P_EE then
        scan_empties b dr dc n (row + dr) (col + dc) + 1
      else 0

/-- The step index, counted from `(r, c)`, of the first non-empty cell in
direction `(dr, dc)` (the cannon's screen / the rook's stop). -/
def first_stop (b : Board) (r c dr dc : Int) : Nat :=
  scan_empties b dr dc 13 (r + dr) (c + dc) + 1

/- ### Board round-trip lemmas -/

theorem list_set_getD (l : List Char) (i : Nat) (x : Char) :
    l.set i (l.getD i x) = l := by
  induction l generalizing i with
  | nil => rfl
  | cons a as ih =>
      cases i with
      | zero => rfl
      | succ n => simp only [List.getD_cons_succ, List.set_cons_succ, ih]

theorem list_move_roundtrip (d : List Char) (i j : Nat) (x : Char) :
    (((d.set i x).set j (d.getD i P_EO)).set i (d.getD i P_EO)).set j
        (d.getD j P_EO) = d := by
  apply List.ext_getElem?
  intro n
  simp only [List.getElem?_set, List.length_set, List.getD_eq_getElem?_getD]
  by_cases hjn : j = n
  · subst hjn
    by_cases hlt : j < d.length
    · simp only [hlt, if_true, if_pos rfl, List.getElem?_eq_getElem hlt,
        Option.getD_some]
    · simp only [hlt, if_false, if_pos rfl,
        List.getElem?_eq_none (Nat.le_of_not_lt hlt)]
      simp
  · simp only [hjn, if_false]
    by_cases hin : i = n
    · subst hin
      by_cases hlt : i < d.length
      · simp only [hlt, if_true, if_pos rfl, List.getElem?_eq_getElem hlt,
          Option.getD_some]
      · simp only [hlt, if_false, if_pos rfl,
          List.getElem?_eq_none (Nat.le_of_not_lt hlt)]
        simp
    · simp only [hin, if_false]

/-- C3 core: undoing a just-applied move restores the full board state. -/
theorem move_undo_id (b : Board) (mv : Move) : (b.move mv).undo = b := by
  cases b with
  | mk d h =>
      simp only [Board.move, Board.undo, Board.set, Board.get]
      simp only [List.getLast?_concat, List.dropLast_concat]
      rw [list_move_roundtrip]

/- ### C3 -/

/-- C3: for every move `m` (in particular every pair of interior positions)
and every board state `b`, applying `m` and then undoing restores `b`
exactly: every grid cell equals its prior value and the history sequence
equals its prior contents. -/
theorem c3_move_then_undo_restores (b : Board) (mv : Move) :
    ((b.move mv).undo).data = b.data ∧ ((b.move mv).undo).history = b.history := by
  rw [move_undo_id]
  exact ⟨rfl, rfl⟩

/- ### C10 -/

/-- C10: at depth ≥ 1, if the side to move has no pseudo-legal moves,
`min_max` returns `INT32_MIN` at a maximizing node and `INT32_MAX` at a
minimizing node — independently of the evaluator tables, i.e. without
evaluating the position. -/
theorem c10_moveless_side_scores_worst (t : Tables) (b : Board) (d : Nat)
    (alpha beta : Int) :
    (gen_possible_moves b Side.down = [] →
      min_max t (d + 1) b alpha beta true = INT32_MIN) ∧
    (gen_possible_moves b Side.up = [] →
      min_max t (d + 1) b alpha beta false = INT32_MAX) := by
  constructor
  · intro h
    simp only [min_max, if_true, h]
    rfl
  · intro h
    simp only [min_max, if_false, h]
    rfl

/-- Witness for C10 on the empty-interior board. -/
theorem c10_witness :
    gen_possible_moves emptyInteriorBoard Side.down = [] ∧
      min_max zeroTables 1 emptyInteriorBoard INT32_MIN INT32_MAX true = INT32_MIN :=
  ⟨by decide,
    (c10_moveless_side_scores_worst zeroTables emptyInteriorBoard 0 INT32_MIN
      INT32_MAX).1 (by decide)⟩

/- ### C9 -/

/-- C9 counterexample: the 5-character input string `"a0a0x"` is accepted as
a move by `Game::is_input_a_move`, contradicting the claim that exactly
4-character strings are recognized. -/
theorem c9_counterexample :
    is_input_a_move ("a0a0x".toList) = true ∧ ("a0a0x".toList).length ≠ 4 := by
  exact ⟨by decide, by decide⟩

/-- C9 (amended): an input is recognized as a move iff it has **at least** 4
characters and its first four are `file rank file rank` with files `a..i`,
ranks `0..9`; any input not of that form leaves the board unchanged. -/
theorem c9_amended (input : List Char) :
    (is_input_a_move input = true ↔
      (4 ≤ input.length ∧
        'a' ≤ input.getD 0 ' ' ∧ input.getD 0 ' ' ≤ 'i' ∧
        '0' ≤ input.getD 1 ' ' ∧ input.getD 1 ' ' ≤ '9' ∧
        'a' ≤ input.getD 2 ' ' ∧ input.getD 2 ' ' ≤ 'i' ∧
        '0' ≤ input.getD 3 ' ' ∧ input.getD 3 ' ' ≤ '9')) ∧
    (∀ (t : Tables) (sd : Nat) (us es : Side) (b : Board),
      is_input_a_move input = false → handle_move t sd us es b input = b) := by
  constructor
  · unfold is_input_a_move
    by_cases hl : input.length < 4
    · simp only [hl, if_true]
      constructor
      · intro h
        simp at h
      · intro h
        omega
    · simp only [hl, if_false, Bool.and_eq_true, decide_eq_true_eq]
      constructor
      · intro h
        refine ⟨by omega, ?_⟩
        tauto
      · intro h
        tauto
  · intro t sd us es b h
    unfold handle_move
    rw [h]
    simp

/-- Witness for C9 (amended) on the rejected input `"hi"`. -/
theorem c9_witness :
    is_input_a_move ("hi".toList) = false ∧
      handle_move zeroTables 3 Side.down Side.up openingBoard ("hi".toList) =
        openingBoard :=
  ⟨by decide,
    (c9_amended ("hi".toList)).2 zeroTables 3 Side.down Side.up openingBoard
      (by decide)⟩

/- ### C2 counterexample -/

/-- C2 counterexample: on `c2Board` with `c2Tables` at depth 1, the
sequential down-side root score is 5 but the parallel down-side root score is
0 — the parallel chunks recurse with `isMax = true` where the sequential root
passes `false`, so the two searches do not agree on the optimal root score
(nor, a fortiori, on the set of equi-optimal root moves). -/
theorem c2_counterexample :
    BestMoveGen_rootScore c2Tables c2Board Side.down 1 = 5 ∧
      BestMoveGenParallel_rootScore c2Tables c2Board Side.down 1 = 0 :=
  ⟨by decide, by decide⟩

/-- C1 evaluation at the failing input: from the opening position, the
alternating pseudo-legal sequence `c1m1 … c1m7` reaches a position where the
up general's flying-general capture `c1m8` is in the up pseudo-move list and
its destination holds the down general; yet after applying it
`is_win(up) = false` (no winner is reported at all) and the down nine-palace
still contains a general piece (the up general that flew into it) —
contradicting the claim. -/
theorem c1_flying_general_win_missed :
    c1m1 ∈ gen_possible_moves openingBoard Side.down ∧
    c1m2 ∈ gen_possible_moves c1b1 Side.up ∧
    c1m3 ∈ gen_possible_moves c1b2 Side.down ∧
    c1m4 ∈ gen_possible_moves c1b3 Side.up ∧
    c1m5 ∈ gen_possible_moves c1b4 Side.down ∧
    c1m6 ∈ gen_possible_moves c1b5 Side.up ∧
    c1m7 ∈ gen_possible_moves c1b6 Side.down ∧
    c1m8 ∈ gen_possible_moves c1b7 Side.up ∧
    c1b7.get c1m8.toPos.row c1m8.toPos.col = P_DG ∧
    is_win (c1b7.move c1m8) Side.up = false ∧
    is_win (c1b7.move c1m8) Side.down = false ∧
    piece_type ((c1b7.move c1m8).get 11 6) = PieceType.general := by
  refine ⟨by decide, by decide, by decide, by decide, by decide, by decide,
    by decide, by decide, by decide, by decide, by decide, by decide⟩

/- ### C7: blocked-horse rule -/

/-- C7: every knight move to `(r±2, c±1)` is generated only when the
orthogonal leg `(r±1, c)` is empty, and every move to `(r±1, c±2)` only when
the leg `(r, c±1)` is empty; equivalently, an occupied leg (piece or
sentinel) suppresses both L-moves it gates even if the target cells are
empty. -/
theorem c7_knight_leg_gating (cb : Board) (r c : Int) (s : Side) (mv : Move)
    (hm : mv ∈ gen_moves_knight cb r c s) :
    (mv.toPos.row = r + 2 → cb.get (r + 1) c = P_EE) ∧
    (mv.toPos.row = r - 2 → cb.get (r - 1) c = P_EE) ∧
    (mv.toPos.col = c + 2 → cb.get r (c + 1) = P_EE) ∧
    (mv.toPos.col = c - 2 → cb.get r (c - 1) = P_EE) := by
  simp only [gen_moves_knight, check_possible_move_and_insert, List.mem_append,
    List.mem_ite_nil_right, List.mem_singleton] at hm
  rcases hm with ((⟨hgate, ⟨-, hmv⟩ | ⟨-, hmv⟩⟩ | ⟨hgate, ⟨-, hmv⟩ | ⟨-, hmv⟩⟩) |
    ⟨hgate, ⟨-, hmv⟩ | ⟨-, hmv⟩⟩) | ⟨hgate, ⟨-, hmv⟩ | ⟨-, hmv⟩⟩ <;>
    subst hmv <;>
    refine ⟨fun hh => ?_, fun hh => ?_, fun hh => ?_, fun hh => ?_⟩ <;>
    simp only at hh <;>
    first
      | exact hgate
      | exact absurd hh (by omega)

/-- Witness for C7: a knight with an empty leg does generate the gated move,
and the theorem recovers the leg's emptiness from the membership. -/
theorem c7_witness :
    (⟨⟨6, 6⟩, ⟨8, 7⟩⟩ : Move) ∈ gen_moves_knight knightBoard 6 6 Side.up ∧
      knightBoard.get 7 6 = P_EE :=
  ⟨by decide,
    (c7_knight_leg_gating knightBoard 6 6 Side.up ⟨⟨6, 6⟩, ⟨8, 7⟩⟩
      (by decide)).1 (by decide)⟩

/- ### C8: bishop geometry, elephant eye and the river -/

/-- C8 counterexample: the river test guards only the forward diagonal pair,
so an up bishop standing on row 9 (already past the river) generates the
backward-diagonal move to row 7, and `7 > RIVER_UP`: the claim's "an Upper
bishop never reaches a row greater than RIVER_UP" fails on a board whose
bishop starts beyond the river. -/
theorem c8_counterexample :
    (⟨⟨9, 6⟩, ⟨7, 8⟩⟩ : Move) ∈ gen_possible_moves bishopAcrossBoard Side.up ∧
      piece_side (bishopAcrossBoard.get 9 6) = Side.up ∧
      piece_type (bishopAcrossBoard.get 9 6) = PieceType.bishop ∧
      (7 : Int) > river_up :=
  ⟨by decide, by decide, by decide, by decide⟩

/-- C8 (amended): for a bishop of side `s` standing on its own side of the
river (`r ≤ RIVER_UP` for up, `r ≥ RIVER_DOWN` for down), every generated
move is exactly two cells diagonal, is generated only if the elephant-eye
cell is empty, and never lands across the river (in particular an up bishop
on row `RIVER_UP` has no forward diagonal moves). -/
theorem c8_amended_bishop_moves (cb : Board) (r c : Int) (s : Side)
    (hside : piece_side (cb.get r c) = s)
    (htype : piece_type (cb.get r c) = PieceType.bishop)
    (hup : s = Side.up → r ≤ river_up)
    (hdown : s = Side.down → r ≥ river_down)
    (mv : Move) (hm : mv ∈ gen_moves_bishop cb r c s) :
    (mv.toPos.row = r + 2 ∨ mv.toPos.row = r - 2) ∧
    (mv.toPos.col = c + 2 ∨ mv.toPos.col = c - 2) ∧
    (mv.toPos = ⟨r + 2, c + 2⟩ → cb.get (r + 1) (c + 1) = P_EE) ∧
    (mv.toPos = ⟨r + 2, c - 2⟩ → cb.get (r + 1) (c - 1) = P_EE) ∧
    (mv.toPos = ⟨r - 2, c + 2⟩ → cb.get (r - 1) (c + 1) = P_EE) ∧
    (mv.toPos = ⟨r - 2, c - 2⟩ → cb.get (r - 1) (c - 1) = P_EE) ∧
    (s = Side.up → mv.toPos.row ≤ river_up) ∧
    (s = Side.down → mv.toPos.row ≥ river_down) := by
  cases s with
  | extra => simp [gen_moves_bishop] at hm
  | up =>
      have hub : r ≤ (6 : Int) := hup rfl
      simp only [gen_moves_bishop, check_possible_move_and_insert,
        List.mem_append, List.mem_ite_nil_right, List.mem_singleton] at hm
      simp only [river_up, river_down] at *
      rcases hm with (⟨hriv, ⟨heye, -, hmv⟩ | ⟨heye, -, hmv⟩⟩ | ⟨heye, -, hmv⟩) |
        ⟨heye, -, hmv⟩ <;>
        subst hmv <;>
        refine ⟨?_, ?_, ?_, ?_, ?_, ?_, ?_, ?_⟩ <;>
          simp only [Pos.mk.injEq] <;>
          first
            | exact Or.inl rfl
            | exact Or.inr rfl
            | exact Or.inl trivial
            | exact Or.inr trivial
            | (intro hh; exact heye)
            | (intro hh; exact absurd hh (by decide))
            | (intro hh; exfalso; omega)
            | (intro hh; omega)
  | down =>
      have hdb : r ≥ (7 : Int) := hdown rfl
      simp only [gen_moves_bishop, check_possible_move_and_insert,
        List.mem_append, List.mem_ite_nil_right, List.mem_singleton] at hm
      simp only [river_up, river_down] at *
      rcases hm with (⟨hriv, ⟨heye, -, hmv⟩ | ⟨heye, -, hmv⟩⟩ | ⟨heye, -, hmv⟩) |
        ⟨heye, -, hmv⟩ <;>
        subst hmv <;>
        refine ⟨?_, ?_, ?_, ?_, ?_, ?_, ?_, ?_⟩ <;>
          simp only [Pos.mk.injEq] <;>
          first
            | exact Or.inl rfl
            | exact Or.inr rfl
            | exact Or.inl trivial
            | exact Or.inr trivial
            | (intro hh; exact heye)
            | (intro hh; exact absurd hh (by decide))
            | (intro hh; exfalso; omega)
            | (intro hh; omega)

/-- Witness for C8 (amended): the opening up bishop at `(2, 4)` generates the
forward diagonal to `(4, 6)`, which stays on its side of the river. -/
theorem c8_witness :
    (⟨⟨2, 4⟩, ⟨4, 6⟩⟩ : Move) ∈ gen_moves_bishop openingBoard 2 4 Side.up ∧
      ((⟨⟨2, 4⟩, ⟨4, 6⟩⟩ : Move).toPos.row ≤ river_up) :=
  ⟨by decide,
    (c8_amended_bishop_moves openingBoard 2 4 Side.up (by decide) (by decide)
      (fun _ => by decide) (fun hh => absurd hh (by decide))
      ⟨⟨2, 4⟩, ⟨4, 6⟩⟩ (by decide)).2.2.2.2.2.2.1 rfl⟩

/- ### Range lemmas for the search -/

theorem foldl_invariant {α β : Type} (P : β → Prop) (f : β → α → β)
    (l : List α) (b : β) (hb : P b) (hf : ∀ b2 a, P b2 → P (f b2 a)) :
    P (l.foldl f b) := by
  induction l generalizing b with
  | nil => exact hb
  | cons x xs ih => exact ih _ (hf _ _ hb)

theorem wrap32_range (z : Int) : INT32_MIN ≤ wrap32 z ∧ wrap32 z ≤ INT32_MAX := by
  unfold wrap32 INT32_MIN INT32_MAX
  have h1 : (0 : Int) ≤ (z + 2147483648) % 4294967296 :=
    Int.emod_nonneg _ (by norm_num)
  have h2 : (z + 2147483648) % 4294967296 < 4294967296 :=
    Int.emod_lt_of_pos _ (by norm_num)
  omega

theorem evaluate_range (t : Tables) (b : Board) :
    INT32_MIN ≤ evaluate t b ∧ evaluate t b ≤ INT32_MAX := by
  unfold evaluate
  apply foldl_invariant (fun a => INT32_MIN ≤ a ∧ a ≤ INT32_MAX)
  · unfold INT32_MIN INT32_MAX
    omega
  · intro acc ri hacc
    apply foldl_invariant (fun a => INT32_MIN ≤ a ∧ a ≤ INT32_MAX)
    · exact hacc
    · intro acc2 ci hacc2
      dsimp only
      split
      · exact wrap32_range _
      · exact hacc2

theorem max_loop_range (f : Board → Int → Int → Int)
    (hf : ∀ b2 a2 b3, INT32_MIN ≤ f b2 a2 b3 ∧ f b2 a2 b3 ≤ INT32_MAX)
    (b : Board) (l : List Move) :
    ∀ (acc alpha beta : Int), INT32_MIN ≤ acc → acc ≤ INT32_MAX →
      INT32_MIN ≤ max_loop f b l acc alpha beta ∧
        max_loop f b l acc alpha beta ≤ INT32_MAX := by
  induction l with
  | nil => intro acc alpha beta h1 h2; exact ⟨h1, h2⟩
  | cons mv rest ih =>
      intro acc alpha beta h1 h2
      simp only [max_loop]
      have hv := hf (b.move mv) alpha beta
      split
      · constructor
        · omega
        · omega
      · apply ih
        · omega
        · omega

theorem min_loop_range (f : Board → Int → Int → Int)
    (hf : ∀ b2 a2 b3, INT32_MIN ≤ f b2 a2 b3 ∧ f b2 a2 b3 ≤ INT32_MAX)
    (b : Board) (l : List Move) :
    ∀ (acc alpha beta : Int), INT32_MIN ≤ acc → acc ≤ INT32_MAX →
      INT32_MIN ≤ min_loop f b l acc alpha beta ∧
        min_loop f b l acc alpha beta ≤ INT32_MAX := by
  induction l with
  | nil => intro acc alpha beta h1 h2; exact ⟨h1, h2⟩
  | cons mv rest ih =>
      intro acc alpha beta h1 h2
      simp only [min_loop]
      have hv := hf (b.move mv) alpha beta
      split
      · constructor
        · omega
        · omega
      · apply ih
        · omega
        · omega

theorem min_max_range (t : Tables) :
    ∀ (d : Nat) (b : Board) (alpha beta : Int) (isMax : Bool),
      INT32_MIN ≤ min_max t d b alpha beta isMax ∧
        min_max t d b alpha beta isMax ≤ INT32_MAX := by
  intro d
  induction d with
  | zero => intro b alpha beta isMax; exact evaluate_range t b
  | succ n ih =>
      intro b alpha beta isMax
      simp only [min_max]
      split
      · apply max_loop_range
        · intro b2 a2 b3; exact ih b2 a2 b3 false
        · exact le_refl _
        · unfold INT32_MIN INT32_MAX; omega
      · apply min_loop_range
        · intro b2 a2 b3; exact ih b2 a2 b3 true
        · unfold INT32_MIN INT32_MAX; omega
        · exact le_refl _

theorem root_loop_up_concat (t : Tables) (d : Nat) (b : Board) (x : Move) :
    ∀ (l : List Move) (acc : Int) (best : Move),
      root_loop_up t d b (l ++ [x]) acc best =
        (if upScore t d b x ≤ (root_loop_up t d b l acc best).1
         then (upScore t d b x, x) else root_loop_up t d b l acc best) := by
  intro l
  induction l with
  | nil =>
      intro acc best
      simp only [List.nil_append, root_loop_up, upScore]
  | cons mv rest ih =>
      intro acc best
      simp only [List.cons_append, root_loop_up]
      by_cases h : min_max t d (b.move mv) INT32_MIN INT32_MAX true ≤ acc <;>
        simp only [h, if_true, if_false] <;> exact ih _ _

theorem root_loop_down_concat (t : Tables) (d : Nat) (b : Board) (x : Move) :
    ∀ (l : List Move) (acc : Int) (best : Move),
      root_loop_down t d b (l ++ [x]) acc best =
        (if downScore t d b x ≥ (root_loop_down t d b l acc best).1
         then (downScore t d b x, x) else root_loop_down t d b l acc best) := by
  intro l
  induction l with
  | nil =>
      intro acc best
      simp only [List.nil_append, root_loop_down, downScore]
  | cons mv rest ih =>
      intro acc best
      simp only [List.cons_append, root_loop_down]
      by_cases h : min_max t d (b.move mv) INT32_MIN INT32_MAX false ≥ acc <;>
        simp only [h, if_true, if_false] <;> exact ih _ _

theorem root_loop_up_cons (t : Tables) (d : Nat) (b : Board) (mv : Move)
    (rest : List Move) (acc : Int) (best : Move) :
    root_loop_up t d b (mv :: rest) acc best =
      (if upScore t d b mv ≤ acc then root_loop_up t d b rest (upScore t d b mv) mv
       else root_loop_up t d b rest acc best) := rfl

theorem root_loop_up_value (t : Tables) (d : Nat) (b : Board) :
    ∀ (l : List Move) (acc : Int) (best : Move),
      (root_loop_up t d b l acc best).1 =
        l.foldl (fun a mv => min a (upScore t d b mv)) acc := by
  intro l
  induction l with
  | nil => intro acc best; rfl
  | cons mv rest ih =>
      intro acc best
      rw [root_loop_up_cons, List.foldl_cons]
      by_cases h : upScore t d b mv ≤ acc <;>
        simp only [h, if_true, if_false] <;> rw [ih] <;> congr 1 <;> omega

theorem root_loop_down_cons (t : Tables) (d : Nat) (b : Board) (mv : Move)
    (rest : List Move) (acc : Int) (best : Move) :
    root_loop_down t d b (mv :: rest) acc best =
      (if downScore t d b mv ≥ acc then
        root_loop_down t d b rest (downScore t d b mv) mv
       else root_loop_down t d b rest acc best) := rfl

theorem root_loop_down_value (t : Tables) (d : Nat) (b : Board) :
    ∀ (l : List Move) (acc : Int) (best : Move),
      (root_loop_down t d b l acc best).1 =
        l.foldl (fun a mv => max a (downScore t d b mv)) acc := by
  intro l
  induction l with
  | nil => intro acc best; rfl
  | cons mv rest ih =>
      intro acc best
      rw [root_loop_down_cons, List.foldl_cons]
      by_cases h : downScore t d b mv ≥ acc <;>
        simp only [h, if_true, if_false] <;> rw [ih] <;> congr 1 <;> omega

theorem foldl_min_le_init (S : Move → Int) :
    ∀ (l : List Move) (a : Int), l.foldl (fun x mv => min x (S mv)) a ≤ a := by
  intro l
  induction l with
  | nil => intro a; exact le_refl a
  | cons mv rest ih =>
      intro a
      have := ih (min a (S mv))
      simp only [List.foldl_cons]
      omega

theorem foldl_min_le_mem (S : Move → Int) :
    ∀ (l : List Move) (a : Int), ∀ mv ∈ l,
      l.foldl (fun x mv2 => min x (S mv2)) a ≤ S mv := by
  intro l
  induction l with
  | nil => intro a mv h; simp at h
  | cons x rest ih =>
      intro a mv h
      rcases List.mem_cons.1 h with h | h
      · subst h
        have := foldl_min_le_init S rest (min a (S mv))
        simp only [List.foldl_cons]
        omega
      · simp only [List.foldl_cons]
        exact ih _ mv h

theorem foldl_max_ge_init (S : Move → Int) :
    ∀ (l : List Move) (a : Int), a ≤ l.foldl (fun x mv => max x (S mv)) a := by
  intro l
  induction l with
  | nil => intro a; exact le_refl a
  | cons mv rest ih =>
      intro a
      have := ih (max a (S mv))
      simp only [List.foldl_cons]
      omega

theorem foldl_max_ge_mem (S : Move → Int) :
    ∀ (l : List Move) (a : Int), ∀ mv ∈ l,
      S mv ≤ l.foldl (fun x mv2 => max x (S mv2)) a := by
  intro l
  induction l with
  | nil => intro a mv h; simp at h
  | cons x rest ih =>
      intro a mv h
      rcases List.mem_cons.1 h with h | h
      · subst h
        have := foldl_max_ge_init S rest (max a (S mv))
        simp only [List.foldl_cons]
        omega
      · simp only [List.foldl_cons]
        exact ih _ mv h

theorem root_loop_up_last (t : Tables) (d : Nat) (b : Board) (l : List Move)
    (hne : l ≠ []) :
    ∃ i : Fin l.length,
      (root_loop_up t d b l INT32_MAX ⟨⟨0, 0⟩, ⟨0, 0⟩⟩).2 = l.get i ∧
      upScore t d b (l.get i) = (root_loop_up t d b l INT32_MAX ⟨⟨0, 0⟩, ⟨0, 0⟩⟩).1 ∧
      ∀ j : Fin l.length, i.val < j.val →
        upScore t d b (l.get j) ≠
          (root_loop_up t d b l INT32_MAX ⟨⟨0, 0⟩, ⟨0, 0⟩⟩).1 := by
  induction l using List.reverseRecOn with
  | nil => exact absurd rfl hne
  | append_singleton l x ih =>
      rw [root_loop_up_concat]
      by_cases hx : upScore t d b x ≤
          (root_loop_up t d b l INT32_MAX ⟨⟨0, 0⟩, ⟨0, 0⟩⟩).1
      · rw [if_pos hx]
        refine ⟨⟨l.length, by simp⟩, ?_, ?_, ?_⟩
        · simp [List.get_eq_getElem]
        · simp [List.get_eq_getElem]
        · intro j hj
          exfalso
          simp only [Fin.val_mk] at hj
          have h2 : j.val < l.length + 1 := by simpa using j.isLt
          omega
      · rw [if_neg hx]
        by_cases hl : l = []
        · subst hl
          exact absurd (min_max_range t d (b.move x) INT32_MIN INT32_MAX true).2 hx
        · obtain ⟨i, h1, h2, h3⟩ := ih hl
          have hlen : i.val < (l ++ [x]).length := by
            simp
            omega
          refine ⟨⟨i.val, hlen⟩, ?_, ?_, ?_⟩
          · rw [h1]
            simp [List.get_eq_getElem, List.getElem_append_left i.isLt]
          · have hg : (l ++ [x]).get ⟨i.val, hlen⟩ = l.get i := by
              simp [List.get_eq_getElem, List.getElem_append_left i.isLt]
            rw [hg]
            exact h2
          · intro j hj
            by_cases hjl : j.val < l.length
            · have hg : (l ++ [x]).get j = l.get ⟨j.val, hjl⟩ := by
                simp [List.get_eq_getElem, List.getElem_append_left hjl]
              rw [hg]
              exact h3 ⟨j.val, hjl⟩ hj
            · have hjx : j.val = l.length := by
                have := j.isLt
                simp at this
                omega
              have hg : (l ++ [x]).get j = x := by
                simp [List.get_eq_getElem, hjx]
              rw [hg]
              intro heq
              exact hx (le_of_eq heq)

theorem root_loop_down_last (t : Tables) (d : Nat) (b : Board) (l : List Move)
    (hne : l ≠ []) :
    ∃ i : Fin l.length,
      (root_loop_down t d b l INT32_MIN ⟨⟨0, 0⟩, ⟨0, 0⟩⟩).2 = l.get i ∧
      downScore t d b (l.get i) = (root_loop_down t d b l INT32_MIN ⟨⟨0, 0⟩, ⟨0, 0⟩⟩).1 ∧
      ∀ j : Fin l.length, i.val < j.val →
        downScore t d b (l.get j) ≠
          (root_loop_down t d b l INT32_MIN ⟨⟨0, 0⟩, ⟨0, 0⟩⟩).1 := by
  induction l using List.reverseRecOn with
  | nil => exact absurd rfl hne
  | append_singleton l x ih =>
      rw [root_loop_down_concat]
      by_cases hx : downScore t d b x ≥
          (root_loop_down t d b l INT32_MIN ⟨⟨0, 0⟩, ⟨0, 0⟩⟩).1
      · rw [if_pos hx]
        refine ⟨⟨l.length, by simp⟩, ?_, ?_, ?_⟩
        · simp [List.get_eq_getElem]
        · simp [List.get_eq_getElem]
        · intro j hj
          exfalso
          simp only [Fin.val_mk] at hj
          have h2 : j.val < l.length + 1 := by simpa using j.isLt
          omega
      · rw [if_neg hx]
        by_cases hl : l = []
        · subst hl
          exact absurd (min_max_range t d (b.move x) INT32_MIN INT32_MAX false).1 hx
        · obtain ⟨i, h1, h2, h3⟩ := ih hl
          have hlen : i.val < (l ++ [x]).length := by
            simp
            omega
          refine ⟨⟨i.val, hlen⟩, ?_, ?_, ?_⟩
          · rw [h1]
            simp [List.get_eq_getElem, List.getElem_append_left i.isLt]
          · have hg : (l ++ [x]).get ⟨i.val, hlen⟩ = l.get i := by
              simp [List.get_eq_getElem, List.getElem_append_left i.isLt]
            rw [hg]
            exact h2
          · intro j hj
            by_cases hjl : j.val < l.length
            · have hg : (l ++ [x]).get j = l.get ⟨j.val, hjl⟩ := by
                simp [List.get_eq_getElem, List.getElem_append_left hjl]
              rw [hg]
              exact h3 ⟨j.val, hjl⟩ hj
            · have hjx : j.val = l.length := by
                have := j.isLt
                simp at this
                omega
              have hg : (l ++ [x]).get j = x := by
                simp [List.get_eq_getElem, hjx]
              rw [hg]
              intro heq
              exact hx (ge_of_eq heq)

/- ### C6 -/

/-- C6: the sequential root (`BestMoveGen::gen`) enumerates the pseudo-moves
of the side in generator order, scores each child with the full
`(INT32_MIN, INT32_MAX)` window (`upScore`/`downScore`), and returns for
Upper a move of minimum child score, for Lower a move of maximum child
score, ties broken so the latest equi-optimal move in generation order
wins. -/
theorem c6_sequential_root_selection (t : Tables) (b : Board) (d : Nat) :
    (gen_possible_moves b Side.up ≠ [] →
      ∃ i : Fin (gen_possible_moves b Side.up).length,
        BestMoveGen_gen t b Side.up d = (gen_possible_moves b Side.up).get i ∧
        upScore t d b ((gen_possible_moves b Side.up).get i) =
          BestMoveGen_rootScore t b Side.up d ∧
        (∀ j : Fin (gen_possible_moves b Side.up).length,
          BestMoveGen_rootScore t b Side.up d ≤
            upScore t d b ((gen_possible_moves b Side.up).get j)) ∧
        (∀ j : Fin (gen_possible_moves b Side.up).length, i.val < j.val →
          upScore t d b ((gen_possible_moves b Side.up).get j) ≠
            BestMoveGen_rootScore t b Side.up d)) ∧
    (gen_possible_moves b Side.down ≠ [] →
      ∃ i : Fin (gen_possible_moves b Side.down).length,
        BestMoveGen_gen t b Side.down d = (gen_possible_moves b Side.down).get i ∧
        downScore t d b ((gen_possible_moves b Side.down).get i) =
          BestMoveGen_rootScore t b Side.down d ∧
        (∀ j : Fin (gen_possible_moves b Side.down).length,
          downScore t d b ((gen_possible_moves b Side.down).get j) ≤
            BestMoveGen_rootScore t b Side.down d) ∧
        (∀ j : Fin (gen_possible_moves b Side.down).length, i.val < j.val →
          downScore t d b ((gen_possible_moves b Side.down).get j) ≠
            BestMoveGen_rootScore t b Side.down d)) := by
  constructor
  · intro h
    obtain ⟨i, h1, h2, h3⟩ :=
      root_loop_up_last t d b (gen_possible_moves b Side.up) h
    refine ⟨i, h1, h2, ?_, h3⟩
    intro j
    have hm := List.get_mem (gen_possible_moves b Side.up) j.val j.isLt
    have hb := foldl_min_le_mem (upScore t d b) (gen_possible_moves b Side.up)
      INT32_MAX _ hm
    have hv : BestMoveGen_rootScore t b Side.up d =
        (gen_possible_moves b Side.up).foldl
          (fun a mv => min a (upScore t d b mv)) INT32_MAX :=
      root_loop_up_value t d b _ INT32_MAX ⟨⟨0, 0⟩, ⟨0, 0⟩⟩
    rw [hv]
    exact hb
  · intro h
    obtain ⟨i, h1, h2, h3⟩ :=
      root_loop_down_last t d b (gen_possible_moves b Side.down) h
    refine ⟨i, h1, h2, ?_, h3⟩
    intro j
    have hm := List.get_mem (gen_possible_moves b Side.down) j.val j.isLt
    have hb := foldl_max_ge_mem (downScore t d b) (gen_possible_moves b Side.down)
      INT32_MIN _ hm
    have hv : BestMoveGen_rootScore t b Side.down d =
        (gen_possible_moves b Side.down).foldl
          (fun a mv => max a (downScore t d b mv)) INT32_MIN :=
      root_loop_down_value t d b _ INT32_MIN ⟨⟨0, 0⟩, ⟨0, 0⟩⟩
    rw [hv]
    exact hb

/-- Witness for C6 on the opening board at depth 0 (up side). -/
theorem c6_witness :
    gen_possible_moves openingBoard Side.up ≠ [] ∧
      ∃ i : Fin (gen_possible_moves openingBoard Side.up).length,
        BestMoveGen_gen zeroTables openingBoard Side.up 0 =
          (gen_possible_moves openingBoard Side.up).get i ∧
        upScore zeroTables 0 openingBoard
            ((gen_possible_moves openingBoard Side.up).get i) =
          BestMoveGen_rootScore zeroTables openingBoard Side.up 0 ∧
        (∀ j : Fin (gen_possible_moves openingBoard Side.up).length,
          BestMoveGen_rootScore zeroTables openingBoard Side.up 0 ≤
            upScore zeroTables 0 openingBoard
              ((gen_possible_moves openingBoard Side.up).get j)) ∧
        (∀ j : Fin (gen_possible_moves openingBoard Side.up).length,
          i.val < j.val →
          upScore zeroTables 0 openingBoard
              ((gen_possible_moves openingBoard Side.up).get j) ≠
            BestMoveGen_rootScore zeroTables openingBoard Side.up 0) :=
  ⟨by decide,
    (c6_sequential_root_selection zeroTables openingBoard 0).1 (by decide)⟩

/- ### C2 amended: up-side score agreement -/

theorem par_chunk_up_eq (t : Tables) (d : Nat) (b : Board) :
    ∀ (l : List Move) (acc : Int) (best : Move),
      par_chunk_up t d b l acc best = root_loop_up t d b l acc best := by
  intro l
  induction l with
  | nil => intro acc best; rfl
  | cons mv rest ih =>
      intro acc best
      simp only [par_chunk_up, root_loop_up]
      by_cases h : min_max t d (b.move mv) INT32_MIN INT32_MAX true ≤ acc <;>
        simp only [h, if_true, if_false] <;> exact ih _ _

theorem reduce_min_value :
    ∀ (rs : List (Int × Move)) (acc : Int) (best : Move),
      (reduce_min rs acc best).1 = rs.foldl (fun a r => min a r.1) acc := by
  intro rs
  induction rs with
  | nil => intro acc best; rfl
  | cons r rest ih =>
      intro acc best
      obtain ⟨v, m⟩ := r
      simp only [reduce_min, List.foldl_cons]
      by_cases h : v ≤ acc <;>
        simp only [h, if_true, if_false] <;> rw [ih] <;> congr 1 <;> simp <;> omega

theorem foldl_min_init (S : Move → Int) :
    ∀ (ch : List Move) (a c : Int), a ≤ c →
      ch.foldl (fun y mv => min y (S mv)) a =
        min a (ch.foldl (fun y mv => min y (S mv)) c) := by
  intro ch
  induction ch with
  | nil => intro a c h; simp; omega
  | cons mv rest ih =>
      intro a c h
      simp only [List.foldl_cons]
      have hX := foldl_min_le_init S rest (min c (S mv))
      rw [ih (min a (S mv)) (min c (S mv)) (by omega)]
      omega

theorem foldl_min_chunks (S : Move → Int) :
    ∀ (L : List (List Move)) (a : Int), a ≤ INT32_MAX →
      L.foldl (fun x ch => min x (ch.foldl (fun y mv => min y (S mv)) INT32_MAX)) a =
        L.flatten.foldl (fun y mv => min y (S mv)) a := by
  intro L
  induction L with
  | nil => intro a _; rfl
  | cons ch L2 ih =>
      intro a ha
      have hm := foldl_min_le_init S ch INT32_MAX
      simp only [List.foldl_cons, List.flatten_cons, List.foldl_append]
      rw [ih _ (by omega), ← foldl_min_init S ch a INT32_MAX ha]

theorem split_vector_aux_join (len : Nat) :
    ∀ (k : Nat) (l : List Move), (split_vector_aux l len k).flatten = l := by
  intro k
  induction k with
  | zero => intro l; simp [split_vector_aux]
  | succ n ih => intro l; simp [split_vector_aux, ih]

theorem split_vector_join (l : List Move) : (split_vector l).flatten = l := by
  unfold split_vector
  by_cases h0 : l.length = 0
  · have : l = [] := List.length_eq_zero.mp h0
    simp [h0, this]
  · simp only [h0, if_false]
    split <;> exact split_vector_aux_join _ _ _

/-- C2 (amended): for side Upper the parallel root-split search computes
exactly the sequential optimal root score (its chunk tasks use the same
`isMax = true` recursion and full windows, chunks concatenate to the whole
move list, and the reduction takes the minimum); the hypothesis excludes the
empty move list, on which the C++ `split_vector` has undefined behaviour. -/
theorem c2_amended_up_scores_agree (t : Tables) (b : Board) (d : Nat)
    (_h : gen_possible_moves b Side.up ≠ []) :
    BestMoveGenParallel_rootScore t b Side.up d =
      BestMoveGen_rootScore t b Side.up d := by
  have hseq : BestMoveGen_rootScore t b Side.up d =
      (gen_possible_moves b Side.up).foldl
        (fun a mv => min a (upScore t d b mv)) INT32_MAX :=
    root_loop_up_value t d b _ INT32_MAX ⟨⟨0, 0⟩, ⟨0, 0⟩⟩
  have hpar : BestMoveGenParallel_rootScore t b Side.up d =
      ((split_vector (gen_possible_moves b Side.up)).map
        (fun ch => par_chunk_up t d b ch INT32_MAX ⟨⟨0, 0⟩, ⟨0, 0⟩⟩)).foldl
        (fun a r => min a r.1) INT32_MAX :=
    reduce_min_value _ INT32_MAX ⟨⟨0, 0⟩, ⟨0, 0⟩⟩
  rw [hseq, hpar, List.foldl_map]
  simp only [par_chunk_up_eq, root_loop_up_value]
  rw [foldl_min_chunks (upScore t d b) _ INT32_MAX (le_refl _),
    split_vector_join]

/-- Witness for C2 (amended) on `c2Board` (the up side has moves there). -/
theorem c2_witness :
    gen_possible_moves c2Board Side.up ≠ [] ∧
      BestMoveGenParallel_rootScore zeroTables c2Board Side.up 1 =
        BestMoveGen_rootScore zeroTables c2Board Side.up 1 :=
  ⟨by decide, c2_amended_up_scores_agree zeroTables c2Board 1 (by decide)⟩

/- ### C4 machinery: well-formed boards and walk lemmas -/

theorem not_interior_row (r c : Int) (h : r < 2 ∨ r > 11) : ¬ interiorPos r c :=
  fun ⟨h1, h2, _, _⟩ => by omega

theorem not_interior_col (r c : Int) (h : c < 2 ∨ c > 10) : ¬ interiorPos r c :=
  fun ⟨_, _, h1, h2⟩ => by omega

theorem wf_border (b : Board) (hwf : b.WF) (r c : Int) (hr0 : 0 ≤ r)
    (hr : r < 14) (hc0 : 0 ≤ c) (hc : c < 13) (hni : ¬ interiorPos r c) :
    b.get r c = P_EO := by
  have h := hwf.2 r.toNat (by omega) c.toNat (by omega)
  rw [Int.toNat_of_nonneg hr0, Int.toNat_of_nonneg hc0] at h
  exact h hni

theorem interior_of_nonsentinel (b : Board) (hwf : b.WF) (r c : Int)
    (hr0 : 0 ≤ r) (hr : r < 14) (hc0 : 0 ≤ c) (hc : c < 13)
    (hne : b.get r c ≠ P_EO) : interiorPos r c := by
  by_contra h
  exact hne (wf_border b hwf r c hr0 hr hc0 hc h)

/-- A cell reached from an interior cell by walking a cardinal direction
through non-sentinel cells is itself interior (the two-cell sentinel border
would have been hit first). -/
theorem interior_of_path (b : Board) (hwf : b.WF) (r c dr dc : Int)
    (hint : interiorPos r c) (hd : dirOk dr dc) (m : Nat)
    (hne : ∀ j : Nat, 1 ≤ j → j ≤ m →
      b.get (r + (j : Int) * dr) (c + (j : Int) * dc) ≠ P_EO) :
    interiorPos (r + (m : Int) * dr) (c + (m : Int) * dc) := by
  obtain ⟨h2r, hr11, h2c, hc10⟩ := hint
  rcases hd with ⟨hdr, hdc⟩ | ⟨hdr, hdc⟩ | ⟨hdr, hdc⟩ | ⟨hdr, hdc⟩ <;>
    subst hdr <;> subst hdc
  · have hbound : (m : Int) ≤ r - 2 := by
      by_contra hgt
      push_neg at hgt
      have hj : (((r - 1).toNat : Int)) = r - 1 := Int.toNat_of_nonneg (by omega)
      apply hne (r - 1).toNat (by omega) (by omega)
      have e1 : r + ((r - 1).toNat : Int) * (-1) = 1 := by rw [hj]; ring
      have e2 : c + ((r - 1).toNat : Int) * 0 = c := by ring
      rw [e1, e2]
      rw [wf_border b hwf 1 c (by omega) (by omega) (by omega) (by omega)
        (not_interior_row 1 c (by omega))]
    exact ⟨by omega, by omega, by omega, by omega⟩
  · have hbound : (m : Int) ≤ 11 - r := by
      by_contra hgt
      push_neg at hgt
      have hj : (((12 - r).toNat : Int)) = 12 - r := Int.toNat_of_nonneg (by omega)
      apply hne (12 - r).toNat (by omega) (by omega)
      have e1 : r + ((12 - r).toNat : Int) * 1 = 12 := by rw [hj]; ring
      have e2 : c + ((12 - r).toNat : Int) * 0 = c := by ring
      rw [e1, e2]
      rw [wf_border b hwf 12 c (by omega) (by omega) (by omega) (by omega)
        (not_interior_row 12 c (by omega))]
    exact ⟨by omega, by omega, by omega, by omega⟩
  · have hbound : (m : Int) ≤ c - 2 := by
      by_contra hgt
      push_neg at hgt
      have hj : (((c - 1).toNat : Int)) = c - 1 := Int.toNat_of_nonneg (by omega)
      apply hne (c - 1).toNat (by omega) (by omega)
      have e1 : r + ((c - 1).toNat : Int) * 0 = r := by ring
      have e2 : c + ((c - 1).toNat : Int) * (-1) = 1 := by rw [hj]; ring
      rw [e1, e2]
      rw [wf_border b hwf r 1 (by omega) (by omega) (by omega) (by omega)
        (not_interior_col r 1 (by omega))]
    exact ⟨by omega, by omega, by omega, by omega⟩
  · have hbound : (m : Int) ≤ 10 - c := by
      by_contra hgt
      push_neg at hgt
      have hj : (((11 - c).toNat : Int)) = 11 - c := Int.toNat_of_nonneg (by omega)
      apply hne (11 - c).toNat (by omega) (by omega)
      have e1 : r + ((11 - c).toNat : Int) * 0 = r := by ring
      have e2 : c + ((11 - c).toNat : Int) * 1 = 11 := by rw [hj]; ring
      rw [e1, e2]
      rw [wf_border b hwf r 11 (by omega) (by omega) (by omega) (by omega)
        (not_interior_col r 11 (by omega))]
    exact ⟨by omega, by omega, by omega, by omega⟩

theorem check_insert_mem (cb : Board) (br bc er ec : Int) (mv : Move)
    (hm : mv ∈ check_possible_move_and_insert cb br bc er ec) :
    mv = ⟨⟨br, bc⟩, ⟨er, ec⟩⟩ ∧ cb.get er ec ≠ P_EO ∧
      piece_side (cb.get br bc) ≠ piece_side (cb.get er ec) := by
  simp only [check_possible_move_and_insert] at hm
  split at hm
  · next hcond => exact ⟨List.mem_singleton.1 hm, hcond.1, hcond.2⟩
  · simp at hm

theorem check_insert_wf (b : Board) (hwf : b.WF) (s : Side) (r c er ec : Int)
    (hint : interiorPos r c) (hs : piece_side (b.get r c) = s)
    (hround : -2 ≤ er - r ∧ er - r ≤ 2 ∧ -2 ≤ ec - c ∧ ec - c ≤ 2)
    (hnid : ¬(er = r ∧ ec = c)) (mv : Move)
    (hm : mv ∈ check_possible_move_and_insert b r c er ec) :
    pseudoMoveWF b s mv := by
  obtain ⟨hmv, hne, hside⟩ := check_insert_mem b r c er ec mv hm
  subst hmv
  obtain ⟨h2r, hr11, h2c, hc10⟩ := hint
  refine ⟨⟨h2r, hr11, h2c, hc10⟩, hs, ?_, ?_, ?_⟩
  · exact interior_of_nonsentinel b hwf er ec (by omega) (by omega) (by omega)
      (by omega) hne
  · intro heq
    rw [hs, heq] at hside
    exact hside rfl
  · intro heq
    have h1 : r = er := congrArg Pos.row heq
    have h2 : c = ec := congrArg Pos.col heq
    exact hnid ⟨h1.symm, h2.symm⟩

theorem ride_loop_mem (b : Board) (r0 c0 dr dc : Int) :
    ∀ (n : Nat) (row col : Int) (mv : Move),
      mv ∈ (ride_loop b r0 c0 dr dc n row col).1 →
      ∃ k : Nat, mv = ⟨⟨r0, c0⟩, ⟨row + (k : Int) * dr, col + (k : Int) * dc⟩⟩ ∧
        (∀ j : Nat, j ≤ k →
          b.get (row + (j : Int) * dr) (col + (j : Int) * dc) = P_EE) := by
  intro n
  induction n with
  | zero => intro row col mv hm; simp [ride_loop] at hm
  | succ n ih =>
      intro row col mv hm
      rw [ride_loop] at hm
      by_cases hp : b.get row col = P_EE
      · rw [if_pos hp] at hm
        rcases List.mem_cons.1 hm with hm | hm
        · refine ⟨0, ?_, ?_⟩
          · simpa using hm
          · intro j hj
            have : j = 0 := by omega
            subst this
            simpa using hp
        · obtain ⟨k, hk1, hk2⟩ := ih (row + dr) (col + dc) mv hm
          refine ⟨k + 1, ?_, ?_⟩
          · rw [hk1]
            have e1 : row + dr + (k : Int) * dr = row + ((k : Int) + 1) * dr := by
              ring
            have e2 : col + dc + (k : Int) * dc = col + ((k : Int) + 1) * dc := by
              ring
            push_cast
            rw [e1, e2]
          · intro j hj
            cases j with
            | zero => simpa using hp
            | succ j2 =>
                have := hk2 j2 (by omega)
                have e1 : row + dr + (j2 : Int) * dr = row + ((j2 : Int) + 1) * dr := by
                  ring
                have e2 : col + dc + (j2 : Int) * dc = col + ((j2 : Int) + 1) * dc := by
                  ring
                rw [e1, e2] at this
                push_cast
                exact this
      · rw [if_neg hp] at hm
        simp at hm

theorem ride_loop_stop (b : Board) (r0 c0 dr dc : Int) :
    ∀ (n : Nat) (row col : Int),
      (ride_loop b r0 c0 dr dc n row col).2.1 ≠ P_EO →
      ∃ e : Nat,
        (ride_loop b r0 c0 dr dc n row col).2.2.1 = row + (e : Int) * dr ∧
        (ride_loop b r0 c0 dr dc n row col).2.2.2 = col + (e : Int) * dc ∧
        (ride_loop b r0 c0 dr dc n row col).2.1 =
          b.get (row + (e : Int) * dr) (col + (e : Int) * dc) ∧
        b.get (row + (e : Int) * dr) (col + (e : Int) * dc) ≠ P_EE ∧
        (∀ j : Nat, j < e →
          b.get (row + (j : Int) * dr) (col + (j : Int) * dc) = P_EE) := by
  intro n
  induction n with
  | zero => intro row col hstop; simp [ride_loop] at hstop
  | succ n ih =>
      intro row col hstop
      rw [ride_loop] at hstop ⊢
      by_cases hp : b.get row col = P_EE
      · rw [if_pos hp] at hstop ⊢
        obtain ⟨e, h1, h2, h3, h4, h5⟩ := ih (row + dr) (col + dc) hstop
        have e1 : row + dr + (e : Int) * dr = row + ((e : Int) + 1) * dr := by ring
        have e2 : col + dc + (e : Int) * dc = col + ((e : Int) + 1) * dc := by ring
        refine ⟨e + 1, ?_, ?_, ?_, ?_, ?_⟩
        · push_cast
          rw [← e1]
          exact h1
        · push_cast
          rw [← e2]
          exact h2
        · push_cast
          rw [← e1, ← e2]
          exact h3
        · push_cast
          rw [← e1, ← e2]
          exact h4
        · intro j hj
          cases j with
          | zero => simpa using hp
          | succ j2 =>
              have := h5 j2 (by omega)
              have f1 : row + dr + (j2 : Int) * dr = row + ((j2 : Int) + 1) * dr := by
                ring
              have f2 : col + dc + (j2 : Int) * dc = col + ((j2 : Int) + 1) * dc := by
                ring
              rw [f1, f2] at this
              push_cast
              exact this
      · rw [if_neg hp] at hstop ⊢
        refine ⟨0, by simp, by simp, by simp, by simpa using hp, by omega⟩

theorem cannon_capture_some (b : Board) (s : Side) (dr dc : Int) :
    ∀ (n : Nat) (row col : Int) (pos : Pos),
      cannon_capture_loop b s dr dc n row col = some pos →
      ∃ e : Nat, pos = ⟨row + (e : Int) * dr, col + (e : Int) * dc⟩ ∧
        piece_side (b.get (row + (e : Int) * dr) (col + (e : Int) * dc)) =
          piece_side_reverse s ∧
        (∀ j : Nat, j < e →
          b.get (row + (j : Int) * dr) (col + (j : Int) * dc) = P_EE) := by
  intro n
  induction n with
  | zero => intro row col pos h; simp [cannon_capture_loop] at h
  | succ n ih =>
      intro row col pos h
      rw [cannon_capture_loop] at h
      by_cases hp : b.get row col = P_EE
      · rw [if_pos hp] at h
        obtain ⟨e, h1, h2, h3⟩ := ih (row + dr) (col + dc) pos h
        have e1 : row + dr + (e : Int) * dr = row + ((e : Int) + 1) * dr := by ring
        have e2 : col + dc + (e : Int) * dc = col + ((e : Int) + 1) * dc := by ring
        refine ⟨e + 1, ?_, ?_, ?_⟩
        · push_cast
          rw [← e1, ← e2]
          exact h1
        · push_cast
          rw [← e1, ← e2]
          exact h2
        · intro j hj
          cases j with
          | zero => simpa using hp
          | succ j2 =>
              have := h3 j2 (by omega)
              have f1 : row + dr + (j2 : Int) * dr = row + ((j2 : Int) + 1) * dr := by
                ring
              have f2 : col + dc + (j2 : Int) * dc = col + ((j2 : Int) + 1) * dc := by
                ring
              rw [f1, f2] at this
              push_cast
              exact this
      · rw [if_neg hp] at h
        by_cases hq : piece_side (b.get row col) = piece_side_reverse s
        · rw [if_pos hq] at h
          refine ⟨0, ?_, by simpa using hq, by omega⟩
          simpa using (Option.some_injective _ h).symm
        · rw [if_neg hq] at h
          simp at h

theorem general_face_loop_some (cb : Board) (c : Int) (target : Piece) (dr : Int) :
    ∀ (n : Nat) (row row2 : Int),
      general_face_loop cb c target dr n row = some row2 →
      cb.get row2 c = target ∧ ∃ j : Nat, j < n ∧ row2 = row + (j : Int) * dr := by
  intro n
  induction n with
  | zero => intro row row2 h; simp [general_face_loop] at h
  | succ n ih =>
      intro row row2 h
      rw [general_face_loop] at h
      by_cases hp : cb.get row c = P_EE
      · rw [if_pos hp] at h
        obtain ⟨h1, j, hj, h2⟩ := ih (row + dr) row2 h
        refine ⟨h1, j + 1, by omega, ?_⟩
        rw [h2]
        push_cast
        ring
      · rw [if_neg hp] at h
        by_cases hq : cb.get row c = target
        · rw [if_pos hq] at h
          have : row2 = row := (Option.some_injective _ h).symm
          subst this
          exact ⟨hq, 0, by omega, by simp⟩
        · rw [if_neg hq] at h
          simp at h

theorem gen_moves_pawn_wf (b : Board) (hwf : b.WF) (s : Side) (r c : Int)
    (hint : interiorPos r c) (hs : piece_side (b.get r c) = s) :
    ∀ mv ∈ gen_moves_pawn b r c s, pseudoMoveWF b s mv := by
  intro mv hm
  cases s with
  | extra => simp [gen_moves_pawn] at hm
  | up =>
      simp only [gen_moves_pawn, List.mem_append, List.mem_ite_nil_right] at hm
      rcases hm with h | ⟨-, h | h⟩
      · exact check_insert_wf b hwf _ r c (r + 1) c hint hs (by omega) (by omega) mv h
      · exact check_insert_wf b hwf _ r c r (c - 1) hint hs (by omega) (by omega) mv h
      · exact check_insert_wf b hwf _ r c r (c + 1) hint hs (by omega) (by omega) mv h
  | down =>
      simp only [gen_moves_pawn, List.mem_append, List.mem_ite_nil_right] at hm
      rcases hm with h | ⟨-, h | h⟩
      · exact check_insert_wf b hwf _ r c (r - 1) c hint hs (by omega) (by omega) mv h
      · exact check_insert_wf b hwf _ r c r (c - 1) hint hs (by omega) (by omega) mv h
      · exact check_insert_wf b hwf _ r c r (c + 1) hint hs (by omega) (by omega) mv h

theorem gen_moves_knight_wf (b : Board) (hwf : b.WF) (s : Side) (r c : Int)
    (hint : interiorPos r c) (hs : piece_side (b.get r c) = s) :
    ∀ mv ∈ gen_moves_knight b r c s, pseudoMoveWF b s mv := by
  intro mv hm
  simp only [gen_moves_knight, List.mem_append, List.mem_ite_nil_right] at hm
  rcases hm with ((⟨-, h | h⟩ | ⟨-, h | h⟩) | ⟨-, h | h⟩) | ⟨-, h | h⟩
  · exact check_insert_wf b hwf _ r c (r + 2) (c + 1) hint hs (by omega) (by omega) mv h
  · exact check_insert_wf b hwf _ r c (r + 2) (c - 1) hint hs (by omega) (by omega) mv h
  · exact check_insert_wf b hwf _ r c (r - 2) (c + 1) hint hs (by omega) (by omega) mv h
  · exact check_insert_wf b hwf _ r c (r - 2) (c - 1) hint hs (by omega) (by omega) mv h
  · exact check_insert_wf b hwf _ r c (r + 1) (c + 2) hint hs (by omega) (by omega) mv h
  · exact check_insert_wf b hwf _ r c (r - 1) (c + 2) hint hs (by omega) (by omega) mv h
  · exact check_insert_wf b hwf _ r c (r + 1) (c - 2) hint hs (by omega) (by omega) mv h
  · exact check_insert_wf b hwf _ r c (r - 1) (c - 2) hint hs (by omega) (by omega) mv h

theorem gen_moves_bishop_wf (b : Board) (hwf : b.WF) (s : Side) (r c : Int)
    (hint : interiorPos r c) (hs : piece_side (b.get r c) = s) :
    ∀ mv ∈ gen_moves_bishop b r c s, pseudoMoveWF b s mv := by
  intro mv hm
  cases s with
  | extra => simp [gen_moves_bishop] at hm
  | up =>
      simp only [gen_moves_bishop, List.mem_append, List.mem_ite_nil_right] at hm
      rcases hm with (⟨-, ⟨-, h⟩ | ⟨-, h⟩⟩ | ⟨-, h⟩) | ⟨-, h⟩
      · exact check_insert_wf b hwf _ r c (r + 2) (c + 2) hint hs (by omega) (by omega) mv h
      · exact check_insert_wf b hwf _ r c (r + 2) (c - 2) hint hs (by omega) (by omega) mv h
      · exact check_insert_wf b hwf _ r c (r - 2) (c + 2) hint hs (by omega) (by omega) mv h
      · exact check_insert_wf b hwf _ r c (r - 2) (c - 2) hint hs (by omega) (by omega) mv h
  | down =>
      simp only [gen_moves_bishop, List.mem_append, List.mem_ite_nil_right] at hm
      rcases hm with (⟨-, ⟨-, h⟩ | ⟨-, h⟩⟩ | ⟨-, h⟩) | ⟨-, h⟩
      · exact check_insert_wf b hwf _ r c (r - 2) (c + 2) hint hs (by omega) (by omega) mv h
      · exact check_insert_wf b hwf _ r c (r - 2) (c - 2) hint hs (by omega) (by omega) mv h
      · exact check_insert_wf b hwf _ r c (r + 2) (c + 2) hint hs (by omega) (by omega) mv h
      · exact check_insert_wf b hwf _ r c (r + 2) (c - 2) hint hs (by omega) (by omega) mv h

theorem gen_moves_advisor_wf (b : Board) (hwf : b.WF) (s : Side) (r c : Int)
    (hint : interiorPos r c) (hs : piece_side (b.get r c) = s) :
    ∀ mv ∈ gen_moves_advisor b r c s, pseudoMoveWF b s mv := by
  intro mv hm
  cases s with
  | extra => simp [gen_moves_advisor] at hm
  | up =>
      simp only [gen_moves_advisor, List.mem_append, List.mem_ite_nil_right] at hm
      rcases hm with ((⟨-, h⟩ | ⟨-, h⟩) | ⟨-, h⟩) | ⟨-, h⟩
      · exact check_insert_wf b hwf _ r c (r + 1) (c + 1) hint hs (by omega) (by omega) mv h
      · exact check_insert_wf b hwf _ r c (r + 1) (c - 1) hint hs (by omega) (by omega) mv h
      · exact check_insert_wf b hwf _ r c (r - 1) (c + 1) hint hs (by omega) (by omega) mv h
      · exact check_insert_wf b hwf _ r c (r - 1) (c - 1) hint hs (by omega) (by omega) mv h
  | down =>
      simp only [gen_moves_advisor, List.mem_append, List.mem_ite_nil_right] at hm
      rcases hm with ((⟨-, h⟩ | ⟨-, h⟩) | ⟨-, h⟩) | ⟨-, h⟩
      · exact check_insert_wf b hwf _ r c (r + 1) (c + 1) hint hs (by omega) (by omega) mv h
      · exact check_insert_wf b hwf _ r c (r + 1) (c - 1) hint hs (by omega) (by omega) mv h
      · exact check_insert_wf b hwf _ r c (r - 1) (c + 1) hint hs (by omega) (by omega) mv h
      · exact check_insert_wf b hwf _ r c (r - 1) (c - 1) hint hs (by omega) (by omega) mv h

theorem gen_moves_general_wf (b : Board) (hwf : b.WF) (s : Side) (r c : Int)
    (hint : interiorPos r c) (hs : piece_side (b.get r c) = s) :
    ∀ mv ∈ gen_moves_general b r c s, pseudoMoveWF b s mv := by
  intro mv hm
  obtain ⟨h2r, hr11, h2c, hc10⟩ := hint
  cases s with
  | extra => simp [gen_moves_general] at hm
  | up =>
      simp only [gen_moves_general, List.mem_append, List.mem_ite_nil_right] at hm
      rcases hm with (((⟨-, h⟩ | ⟨-, h⟩) | ⟨-, h⟩) | ⟨-, h⟩) | h
      · exact check_insert_wf b hwf _ r c (r + 1) c ⟨h2r, hr11, h2c, hc10⟩ hs
          (by omega) (by omega) mv h
      · exact check_insert_wf b hwf _ r c (r - 1) c ⟨h2r, hr11, h2c, hc10⟩ hs
          (by omega) (by omega) mv h
      · exact check_insert_wf b hwf _ r c r (c + 1) ⟨h2r, hr11, h2c, hc10⟩ hs
          (by omega) (by omega) mv h
      · exact check_insert_wf b hwf _ r c r (c - 1) ⟨h2r, hr11, h2c, hc10⟩ hs
          (by omega) (by omega) mv h
      · rcases hloop : general_face_loop b c P_DG 1 (row_end - r).toNat (r + 1) with
          _ | row2
        · rw [hloop] at h
          simp at h
        · rw [hloop] at h
          simp only [List.mem_singleton] at h
          subst h
          obtain ⟨htar, j, hj, hrow⟩ :=
            general_face_loop_some b c P_DG 1 _ (r + 1) row2 hloop
          have hre : row_end = (11 : Int) := rfl
          rw [hre] at hj
          refine ⟨⟨h2r, hr11, h2c, hc10⟩, hs, ?_, ?_, ?_⟩
          · show interiorPos row2 c
            refine ⟨by omega, by omega, h2c, hc10⟩
          · show piece_side (b.get row2 c) ≠ Side.up
            rw [htar]
            decide
          · show (⟨r, c⟩ : Pos) ≠ ⟨row2, c⟩
            intro heq
            have h0 : r = row2 := congrArg Pos.row heq
            omega
  | down =>
      simp only [gen_moves_general, List.mem_append, List.mem_ite_nil_right] at hm
      rcases hm with (((⟨-, h⟩ | ⟨-, h⟩) | ⟨-, h⟩) | ⟨-, h⟩) | h
      · exact check_insert_wf b hwf _ r c (r + 1) c ⟨h2r, hr11, h2c, hc10⟩ hs
          (by omega) (by omega) mv h
      · exact check_insert_wf b hwf _ r c (r - 1) c ⟨h2r, hr11, h2c, hc10⟩ hs
          (by omega) (by omega) mv h
      · exact check_insert_wf b hwf _ r c r (c + 1) ⟨h2r, hr11, h2c, hc10⟩ hs
          (by omega) (by omega) mv h
      · exact check_insert_wf b hwf _ r c r (c - 1) ⟨h2r, hr11, h2c, hc10⟩ hs
          (by omega) (by omega) mv h
      · rcases hloop : general_face_loop b c P_UG (-1) (r - row_begin).toNat (r - 1) with
          _ | row2
        · rw [hloop] at h
          simp at h
        · rw [hloop] at h
          simp only [List.mem_singleton] at h
          subst h
          obtain ⟨htar, j, hj, hrow⟩ :=
            general_face_loop_some b c P_UG (-1) _ (r - 1) row2 hloop
          have hrb : row_begin = (2 : Int) := rfl
          rw [hrb] at hj
          refine ⟨⟨h2r, hr11, h2c, hc10⟩, hs, ?_, ?_, ?_⟩
          · show interiorPos row2 c
            refine ⟨by omega, by omega, h2c, hc10⟩
          · show piece_side (b.get row2 c) ≠ Side.down
            rw [htar]
            decide
          · show (⟨r, c⟩ : Pos) ≠ ⟨row2, c⟩
            intro heq
            have h0 : r = row2 := congrArg Pos.row heq
            omega

theorem ride_loop_mem_origin (b : Board) (r0 c0 dr dc x y : Int) (mv : Move)
    (hm : mv ∈ (ride_loop b r0 c0 dr dc 13 (x + dr) (y + dc)).1) :
    ∃ m : Nat, 1 ≤ m ∧
      mv = ⟨⟨r0, c0⟩, ⟨x + (m : Int) * dr, y + (m : Int) * dc⟩⟩ ∧
      ∀ j : Nat, 1 ≤ j → j ≤ m →
        b.get (x + (j : Int) * dr) (y + (j : Int) * dc) = P_EE := by
  obtain ⟨k, hk1, hk2⟩ := ride_loop_mem b r0 c0 dr dc 13 (x + dr) (y + dc) mv hm
  refine ⟨k + 1, by omega, ?_, ?_⟩
  · rw [hk1]
    have e1 : x + dr + (k : Int) * dr = x + ((k + 1 : Nat) : Int) * dr := by
      push_cast
      ring
    have e2 : y + dc + (k : Int) * dc = y + ((k + 1 : Nat) : Int) * dc := by
      push_cast
      ring
    rw [e1, e2]
  · intro j hj1 hj2
    have := hk2 (j - 1) (by omega)
    have hc : ((j - 1 : Nat) : Int) = (j : Int) - 1 := by omega
    rw [hc] at this
    have e1 : x + dr + ((j : Int) - 1) * dr = x + (j : Int) * dr := by ring
    have e2 : y + dc + ((j : Int) - 1) * dc = y + (j : Int) * dc := by ring
    rw [e1, e2] at this
    exact this

theorem ride_loop_stop_origin (b : Board) (r0 c0 dr dc x y : Int)
    (hstop : (ride_loop b r0 c0 dr dc 13 (x + dr) (y + dc)).2.1 ≠ P_EO) :
    ∃ m : Nat, 1 ≤ m ∧
      (ride_loop b r0 c0 dr dc 13 (x + dr) (y + dc)).2.2.1 = x + (m : Int) * dr ∧
      (ride_loop b r0 c0 dr dc 13 (x + dr) (y + dc)).2.2.2 = y + (m : Int) * dc ∧
      (ride_loop b r0 c0 dr dc 13 (x + dr) (y + dc)).2.1 =
        b.get (x + (m : Int) * dr) (y + (m : Int) * dc) ∧
      b.get (x + (m : Int) * dr) (y + (m : Int) * dc) ≠ P_EE ∧
      ∀ j : Nat, 1 ≤ j → j < m →
        b.get (x + (j : Int) * dr) (y + (j : Int) * dc) = P_EE := by
  obtain ⟨e, h1, h2, h3, h4, h5⟩ :=
    ride_loop_stop b r0 c0 dr dc 13 (x + dr) (y + dc) hstop
  have e1 : x + dr + (e : Int) * dr = x + ((e + 1 : Nat) : Int) * dr := by
    push_cast
    ring
  have e2 : y + dc + (e : Int) * dc = y + ((e + 1 : Nat) : Int) * dc := by
    push_cast
    ring
  refine ⟨e + 1, by omega, ?_, ?_, ?_, ?_, ?_⟩
  · rw [h1, e1]
  · rw [h2, e2]
  · rw [h3, e1, e2]
  · rw [← e1, ← e2]
    exact h4
  · intro j hj1 hjm
    have := h5 (j - 1) (by omega)
    have hc : ((j - 1 : Nat) : Int) = (j : Int) - 1 := by omega
    rw [hc] at this
    have f1 : x + dr + ((j : Int) - 1) * dr = x + (j : Int) * dr := by ring
    have f2 : y + dc + ((j : Int) - 1) * dc = y + (j : Int) * dc := by ring
    rw [f1, f2] at this
    exact this

theorem cannon_capture_some_origin (b : Board) (s : Side) (dr dc x y : Int)
    (pos : Pos)
    (h : cannon_capture_loop b s dr dc 13 (x + dr) (y + dc) = some pos) :
    ∃ m : Nat, 1 ≤ m ∧
      pos = ⟨x + (m : Int) * dr, y + (m : Int) * dc⟩ ∧
      piece_side (b.get (x + (m : Int) * dr) (y + (m : Int) * dc)) =
        piece_side_reverse s ∧
      ∀ j : Nat, 1 ≤ j → j < m →
        b.get (x + (j : Int) * dr) (y + (j : Int) * dc) = P_EE := by
  obtain ⟨e, h1, h2, h3⟩ := cannon_capture_some b s dr dc 13 (x + dr) (y + dc) pos h
  have e1 : x + dr + (e : Int) * dr = x + ((e + 1 : Nat) : Int) * dr := by
    push_cast
    ring
  have e2 : y + dc + (e : Int) * dc = y + ((e + 1 : Nat) : Int) * dc := by
    push_cast
    ring
  refine ⟨e + 1, by omega, ?_, ?_, ?_⟩
  · rw [h1, e1, e2]
  · rw [← e1, ← e2]
    exact h2
  · intro j hj1 hjm
    have := h3 (j - 1) (by omega)
    have hc : ((j - 1 : Nat) : Int) = (j : Int) - 1 := by omega
    rw [hc] at this
    have f1 : x + dr + ((j : Int) - 1) * dr = x + (j : Int) * dr := by ring
    have f2 : y + dc + ((j : Int) - 1) * dc = y + (j : Int) * dc := by ring
    rw [f1, f2] at this
    exact this

theorem piece_side_empty : piece_side P_EE = Side.extra := by decide

theorem piece_side_out : piece_side P_EO = Side.extra := by decide

theorem piece_side_reverse_ne (s : Side) (h : s ≠ Side.extra) :
    piece_side_reverse s ≠ s := by
  cases s with
  | up => decide
  | down => decide
  | extra => exact absurd rfl h

theorem piece_side_reverse_ne_extra (s : Side) :
    piece_side_reverse s ≠ Side.extra := by
  cases s <;> decide

theorem dir_from_ne_to (r c dr dc : Int) (hd : dirOk dr dc) (m : Nat)
    (hm : 1 ≤ m) :
    (⟨r, c⟩ : Pos) ≠ ⟨r + (m : Int) * dr, c + (m : Int) * dc⟩ := by
  intro heq
  have h1 : r = r + (m : Int) * dr := congrArg Pos.row heq
  have h2 : c = c + (m : Int) * dc := congrArg Pos.col heq
  rcases hd with ⟨ha, hb⟩ | ⟨ha, hb⟩ | ⟨ha, hb⟩ | ⟨ha, hb⟩ <;> subst ha <;>
    subst hb <;> omega

theorem gen_moves_cannon_one_direction_wf (b : Board) (hwf : b.WF) (s : Side)
    (hsx : s ≠ Side.extra) (r c dr dc : Int) (hint : interiorPos r c)
    (hs : piece_side (b.get r c) = s) (hd : dirOk dr dc) :
    ∀ mv ∈ gen_moves_cannon_one_direction b r c dr dc s, pseudoMoveWF b s mv := by
  intro mv hm
  simp only [gen_moves_cannon_one_direction, List.mem_append] at hm
  rcases hm with h | h
  · obtain ⟨m, hm1, hmv, hemp⟩ := ride_loop_mem_origin b r c dr dc r c mv h
    subst hmv
    refine ⟨hint, hs, ?_, ?_, ?_⟩
    · show interiorPos (r + (m : Int) * dr) (c + (m : Int) * dc)
      apply interior_of_path b hwf r c dr dc hint hd m
      intro j hj1 hj2
      rw [hemp j hj1 hj2]
      decide
    · show piece_side (b.get (r + (m : Int) * dr) (c + (m : Int) * dc)) ≠ s
      rw [hemp m hm1 (le_refl m), piece_side_empty]
      exact fun heq => hsx heq.symm
    · exact dir_from_ne_to r c dr dc hd m hm1
  · rcases List.mem_ite_nil_right.1 h with ⟨hstop, h2⟩
    rcases hcc : cannon_capture_loop b s dr dc 13
        ((ride_loop b r c dr dc 13 (r + dr) (c + dc)).2.2.1 + dr)
        ((ride_loop b r c dr dc 13 (r + dr) (c + dc)).2.2.2 + dc) with _ | pos
    · rw [hcc] at h2
      simp at h2
    · rw [hcc] at h2
      simp only [List.mem_singleton] at h2
      subst h2
      obtain ⟨m1, hm1, hsr, hsc, hsp, hsne, hpre⟩ :=
        ride_loop_stop_origin b r c dr dc r c hstop
      rw [hsr, hsc] at hcc
      obtain ⟨m2, hm2, hpos, hside2, hpre2⟩ :=
        cannon_capture_some_origin b s dr dc (r + (m1 : Int) * dr)
          (c + (m1 : Int) * dc) pos hcc
      have ec1 : r + (m1 : Int) * dr + (m2 : Int) * dr =
          r + ((m1 + m2 : Nat) : Int) * dr := by
        push_cast
        ring
      have ec2 : c + (m1 : Int) * dc + (m2 : Int) * dc =
          c + ((m1 + m2 : Nat) : Int) * dc := by
        push_cast
        ring
      rw [ec1, ec2] at hpos hside2
      subst hpos
      have hcells : ∀ j : Nat, 1 ≤ j → j ≤ m1 + m2 →
          b.get (r + (j : Int) * dr) (c + (j : Int) * dc) ≠ P_EO := by
        intro j hj1 hj2
        by_cases hjlt : j < m1
        · rw [hpre j hj1 hjlt]
          decide
        · by_cases hjeq : j = m1
          · subst hjeq
            rw [← hsp]
            exact hstop
          · by_cases hjlt2 : j < m1 + m2
            · have := hpre2 (j - m1) (by omega) (by omega)
              have hc : ((j - m1 : Nat) : Int) = (j : Int) - (m1 : Int) := by omega
              rw [hc] at this
              have f1 : r + (m1 : Int) * dr + ((j : Int) - (m1 : Int)) * dr =
                  r + (j : Int) * dr := by ring
              have f2 : c + (m1 : Int) * dc + ((j : Int) - (m1 : Int)) * dc =
                  c + (j : Int) * dc := by ring
              rw [f1, f2] at this
              rw [this]
              decide
            · have hjm : j = m1 + m2 := by omega
              subst hjm
              intro hcon
              rw [hcon, piece_side_out] at hside2
              exact piece_side_reverse_ne_extra s hside2.symm
      refine ⟨hint, hs, ?_, ?_, ?_⟩
      · show interiorPos (r + ((m1 + m2 : Nat) : Int) * dr)
          (c + ((m1 + m2 : Nat) : Int) * dc)
        exact interior_of_path b hwf r c dr dc hint hd (m1 + m2) hcells
      · show piece_side (b.get (r + ((m1 + m2 : Nat) : Int) * dr)
          (c + ((m1 + m2 : Nat) : Int) * dc)) ≠ s
        rw [hside2]
        exact piece_side_reverse_ne s hsx
      · exact dir_from_ne_to r c dr dc hd (m1 + m2) (by omega)

theorem gen_moves_rook_one_direction_wf (b : Board) (hwf : b.WF) (s : Side)
    (hsx : s ≠ Side.extra) (r c dr dc : Int) (hint : interiorPos r c)
    (hs : piece_side (b.get r c) = s) (hd : dirOk dr dc) :
    ∀ mv ∈ gen_moves_rook_one_direction b r c dr dc s, pseudoMoveWF b s mv := by
  intro mv hm
  simp only [gen_moves_rook_one_direction, List.mem_append] at hm
  rcases hm with h | h
  · obtain ⟨m, hm1, hmv, hemp⟩ := ride_loop_mem_origin b r c dr dc r c mv h
    subst hmv
    refine ⟨hint, hs, ?_, ?_, ?_⟩
    · show interiorPos (r + (m : Int) * dr) (c + (m : Int) * dc)
      apply interior_of_path b hwf r c dr dc hint hd m
      intro j hj1 hj2
      rw [hemp j hj1 hj2]
      decide
    · show piece_side (b.get (r + (m : Int) * dr) (c + (m : Int) * dc)) ≠ s
      rw [hemp m hm1 (le_refl m), piece_side_empty]
      exact fun heq => hsx heq.symm
    · exact dir_from_ne_to r c dr dc hd m hm1
  · rcases List.mem_ite_nil_right.1 h with ⟨hen, h2⟩
    simp only [List.mem_singleton] at h2
    subst h2
    have hstop : (ride_loop b r c dr dc 13 (r + dr) (c + dc)).2.1 ≠ P_EO := by
      intro hcon
      rw [hcon, piece_side_out] at hen
      exact piece_side_reverse_ne_extra s hen.symm
    obtain ⟨m, hm1, hsr, hsc, hsp, hsne, hpre⟩ :=
      ride_loop_stop_origin b r c dr dc r c hstop
    rw [hsp] at hen
    refine ⟨hint, hs, ?_, ?_, ?_⟩
    · show interiorPos ((ride_loop b r c dr dc 13 (r + dr) (c + dc)).2.2.1)
        ((ride_loop b r c dr dc 13 (r + dr) (c + dc)).2.2.2)
      rw [hsr, hsc]
      apply interior_of_path b hwf r c dr dc hint hd m
      intro j hj1 hj2
      by_cases hjlt : j < m
      · rw [hpre j hj1 hjlt]
        decide
      · have : j = m := by omega
        subst this
        intro hcon
        rw [hcon, piece_side_out] at hen
        exact piece_side_reverse_ne_extra s hen.symm
    · show piece_side (b.get ((ride_loop b r c dr dc 13 (r + dr) (c + dc)).2.2.1)
        ((ride_loop b r c dr dc 13 (r + dr) (c + dc)).2.2.2)) ≠ s
      rw [hsr, hsc, hen]
      exact piece_side_reverse_ne s hsx
    · show (⟨r, c⟩ : Pos) ≠ _
      rw [hsr, hsc]
      exact dir_from_ne_to r c dr dc hd m hm1

theorem gen_moves_cannon_wf (b : Board) (hwf : b.WF) (s : Side)
    (hsx : s ≠ Side.extra) (r c : Int) (hint : interiorPos r c)
    (hs : piece_side (b.get r c) = s) :
    ∀ mv ∈ gen_moves_cannon b r c s, pseudoMoveWF b s mv := by
  intro mv hm
  simp only [gen_moves_cannon, List.mem_append] at hm
  rcases hm with ((h | h) | h) | h
  · exact gen_moves_cannon_one_direction_wf b hwf s hsx r c (-1) 0 hint hs
      (Or.inl ⟨rfl, rfl⟩) mv h
  · exact gen_moves_cannon_one_direction_wf b hwf s hsx r c 1 0 hint hs
      (Or.inr (Or.inl ⟨rfl, rfl⟩)) mv h
  · exact gen_moves_cannon_one_direction_wf b hwf s hsx r c 0 (-1) hint hs
      (Or.inr (Or.inr (Or.inl ⟨rfl, rfl⟩))) mv h
  · exact gen_moves_cannon_one_direction_wf b hwf s hsx r c 0 1 hint hs
      (Or.inr (Or.inr (Or.inr ⟨rfl, rfl⟩))) mv h

theorem gen_moves_rook_wf (b : Board) (hwf : b.WF) (s : Side)
    (hsx : s ≠ Side.extra) (r c : Int) (hint : interiorPos r c)
    (hs : piece_side (b.get r c) = s) :
    ∀ mv ∈ gen_moves_rook b r c s, pseudoMoveWF b s mv := by
  intro mv hm
  simp only [gen_moves_rook, List.mem_append] at hm
  rcases hm with ((h | h) | h) | h
  · exact gen_moves_rook_one_direction_wf b hwf s hsx r c (-1) 0 hint hs
      (Or.inl ⟨rfl, rfl⟩) mv h
  · exact gen_moves_rook_one_direction_wf b hwf s hsx r c 1 0 hint hs
      (Or.inr (Or.inl ⟨rfl, rfl⟩)) mv h
  · exact gen_moves_rook_one_direction_wf b hwf s hsx r c 0 (-1) hint hs
      (Or.inr (Or.inr (Or.inl ⟨rfl, rfl⟩))) mv h
  · exact gen_moves_rook_one_direction_wf b hwf s hsx r c 0 1 hint hs
      (Or.inr (Or.inr (Or.inr ⟨rfl, rfl⟩))) mv h

/- ### C4 -/

/-- C4: on a well-formed (sentinel-bordered) board, every move returned by
`gen_possible_moves(b, s)` for a real side `s` has its from-position on an
interior cell holding a piece of side `s`, its to-position on an interior
(non-sentinel) cell not holding a piece of side `s`, and from distinct from
to. -/
theorem c4_gen_possible_moves_wf (b : Board) (s : Side) (hwf : b.WF)
    (hsx : s ≠ Side.extra) (mv : Move) (hm : mv ∈ gen_possible_moves b s) :
    interiorPos mv.fromPos.row mv.fromPos.col ∧
    piece_side (b.get mv.fromPos.row mv.fromPos.col) = s ∧
    interiorPos mv.toPos.row mv.toPos.col ∧
    piece_side (b.get mv.toPos.row mv.toPos.col) ≠ s ∧
    mv.fromPos ≠ mv.toPos := by
  simp only [gen_possible_moves, List.mem_flatMap, List.mem_range] at hm
  obtain ⟨ri, hri, ci, hci, hm⟩ := hm
  rcases List.mem_ite_nil_right.1 hm with ⟨hside, hm⟩
  have hint : interiorPos ((ri : Int) + 2) ((ci : Int) + 2) :=
    ⟨by omega, by omega, by omega, by omega⟩
  rcases hpt : piece_type (b.get ((ri : Int) + 2) ((ci : Int) + 2)) <;>
    rw [hpt] at hm
  · exact gen_moves_pawn_wf b hwf s _ _ hint hside mv hm
  · exact gen_moves_cannon_wf b hwf s hsx _ _ hint hside mv hm
  · exact gen_moves_rook_wf b hwf s hsx _ _ hint hside mv hm
  · exact gen_moves_knight_wf b hwf s _ _ hint hside mv hm
  · exact gen_moves_bishop_wf b hwf s _ _ hint hside mv hm
  · exact gen_moves_advisor_wf b hwf s _ _ hint hside mv hm
  · exact gen_moves_general_wf b hwf s _ _ hint hside mv hm
  · exact absurd hm (List.not_mem_nil mv)
  · exact absurd hm (List.not_mem_nil mv)

set_option maxRecDepth 8192 in
/-- Witness for C4: the opening down pawn push `(8,6)-(7,6)`. -/
theorem c4_witness :
    openingBoard.WF ∧
      (⟨⟨8, 6⟩, ⟨7, 6⟩⟩ : Move) ∈ gen_possible_moves openingBoard Side.down ∧
      interiorPos (7 : Int) (6 : Int) ∧
      piece_side (openingBoard.get 7 6) ≠ Side.down := by
  have h := c4_gen_possible_moves_wf openingBoard Side.down (by decide)
    (by decide) ⟨⟨8, 6⟩, ⟨7, 6⟩⟩ (by decide)
  exact ⟨by decide, by decide, h.2.2.1, h.2.2.2.1⟩

theorem scan_empties_spec (b : Board) (dr dc : Int) :
    ∀ (n : Nat) (row col : Int),
      (∃ j : Nat, j < n ∧ b.get (row + (j : Int) * dr) (col + (j : Int) * dc) ≠ P_EE) →
      scan_empties b dr dc n row col < n ∧
      (∀ k : Nat, k < scan_empties b dr dc n row col →
        b.get (row + (k : Int) * dr) (col + (k : Int) * dc) = P_EE) ∧
      b.get (row + (scan_empties b dr dc n row col : Int) * dr)
        (col + (scan_empties b dr dc n row col : Int) * dc) ≠ P_EE := by
  intro n
  induction n with
  | zero =>
      intro row col hex
      obtain ⟨j, hj, -⟩ := hex
      omega
  | succ n ih =>
      intro row col hex
      rw [scan_empties]
      by_cases hp : b.get row col = P_EE
      · rw [if_pos hp]
        have hex2 : ∃ j : Nat, j < n ∧
            b.get (row + dr + (j : Int) * dr) (col + dc + (j : Int) * dc) ≠ P_EE := by
          obtain ⟨j, hj, hne⟩ := hex
          cases j with
          | zero =>
              exfalso
              apply hne
              simpa using hp
          | succ j2 =>
              refine ⟨j2, by omega, ?_⟩
              have f1 : row + dr + (j2 : Int) * dr = row + ((j2 : Int) + 1) * dr := by
                ring
              have f2 : col + dc + (j2 : Int) * dc = col + ((j2 : Int) + 1) * dc := by
                ring
              rw [f1, f2]
              push_cast at hne
              exact hne
        obtain ⟨ih1, ih2, ih3⟩ := ih (row + dr) (col + dc) hex2
        refine ⟨by omega, ?_, ?_⟩
        · intro k hk
          cases k with
          | zero => simpa using hp
          | succ k2 =>
              have := ih2 k2 (by omega)
              have f1 : row + dr + (k2 : Int) * dr = row + ((k2 : Int) + 1) * dr := by
                ring
              have f2 : col + dc + (k2 : Int) * dc = col + ((k2 : Int) + 1) * dc := by
                ring
              rw [f1, f2] at this
              push_cast
              exact this
        · have f1 : row + dr + ((scan_empties b dr dc n (row + dr) (col + dc)) : Int) * dr =
              row + (((scan_empties b dr dc n (row + dr) (col + dc)) : Int) + 1) * dr := by
            ring
          have f2 : col + dc + ((scan_empties b dr dc n (row + dr) (col + dc)) : Int) * dc =
              col + (((scan_empties b dr dc n (row + dr) (col + dc)) : Int) + 1) * dc := by
            ring
          rw [f1, f2] at ih3
          push_cast
          exact ih3
      · rw [if_neg hp]
        refine ⟨by omega, by omega, by simpa using hp⟩

theorem exists_blocker (b : Board) (hwf : b.WF) (x y dr dc : Int)
    (hint : interiorPos x y) (hd : dirOk dr dc) :
    ∃ j : Nat, j < 13 ∧
      b.get (x + dr + (j : Int) * dr) (y + dc + (j : Int) * dc) ≠ P_EE := by
  obtain ⟨h2r, hr11, h2c, hc10⟩ := hint
  rcases hd with ⟨ha, hb⟩ | ⟨ha, hb⟩ | ⟨ha, hb⟩ | ⟨ha, hb⟩ <;> subst ha <;> subst hb
  · refine ⟨(x - 1).toNat, by omega, ?_⟩
    have e1 : x + -1 + ((x - 1).toNat : Int) * -1 = 0 := by
      have : ((x - 1).toNat : Int) = x - 1 := by omega
      rw [this]
      ring
    have e2 : y + 0 + ((x - 1).toNat : Int) * 0 = y := by ring
    rw [e1, e2, wf_border b hwf 0 y (by omega) (by omega) (by omega) (by omega)
      (not_interior_row 0 y (by omega))]
    decide
  · refine ⟨(11 - x).toNat, by omega, ?_⟩
    have e1 : x + 1 + ((11 - x).toNat : Int) * 1 = 12 := by
      have : ((11 - x).toNat : Int) = 11 - x := by omega
      rw [this]
      ring
    have e2 : y + 0 + ((11 - x).toNat : Int) * 0 = y := by ring
    rw [e1, e2, wf_border b hwf 12 y (by omega) (by omega) (by omega) (by omega)
      (not_interior_row 12 y (by omega))]
    decide
  · refine ⟨(y - 1).toNat, by omega, ?_⟩
    have e1 : x + 0 + ((y - 1).toNat : Int) * 0 = x := by ring
    have e2 : y + -1 + ((y - 1).toNat : Int) * -1 = 0 := by
      have : ((y - 1).toNat : Int) = y - 1 := by omega
      rw [this]
      ring
    rw [e1, e2, wf_border b hwf x 0 (by omega) (by omega) (by omega) (by omega)
      (not_interior_col x 0 (by omega))]
    decide
  · refine ⟨(10 - y).toNat, by omega, ?_⟩
    have e1 : x + 0 + ((10 - y).toNat : Int) * 0 = x := by ring
    have e2 : y + 1 + ((10 - y).toNat : Int) * 1 = 11 := by
      have : ((10 - y).toNat : Int) = 10 - y := by omega
      rw [this]
      ring
    rw [e1, e2, wf_border b hwf x 11 (by omega) (by omega) (by omega) (by omega)
      (not_interior_col x 11 (by omega))]
    decide

theorem ride_loop_spec (b : Board) (r0 c0 dr dc : Int) :
    ∀ (n : Nat) (row col : Int),
      (∃ j : Nat, j < n ∧
        b.get (row + (j : Int) * dr) (col + (j : Int) * dc) ≠ P_EE) →
      ride_loop b r0 c0 dr dc n row col =
        ((List.range (scan_empties b dr dc n row col)).map
          (fun k => ⟨⟨r0, c0⟩, ⟨row + (k : Int) * dr, col + (k : Int) * dc⟩⟩),
         b.get (row + (scan_empties b dr dc n row col : Int) * dr)
           (col + (scan_empties b dr dc n row col : Int) * dc),
         row + (scan_empties b dr dc n row col : Int) * dr,
         col + (scan_empties b dr dc n row col : Int) * dc) := by
  intro n
  induction n with
  | zero =>
      intro row col hex
      obtain ⟨j, hj, -⟩ := hex
      omega
  | succ n ih =>
      intro row col hex
      rw [ride_loop, scan_empties]
      by_cases hp : b.get row col = P_EE
      · rw [if_pos hp, if_pos hp]
        have hex2 : ∃ j : Nat, j < n ∧
            b.get (row + dr + (j : Int) * dr) (col + dc + (j : Int) * dc) ≠ P_EE := by
          obtain ⟨j, hj, hne⟩ := hex
          cases j with
          | zero =>
              exfalso
              apply hne
              simpa using hp
          | succ j2 =>
              refine ⟨j2, by omega, ?_⟩
              have f1 : row + dr + (j2 : Int) * dr = row + ((j2 : Int) + 1) * dr := by
                ring
              have f2 : col + dc + (j2 : Int) * dc = col + ((j2 : Int) + 1) * dc := by
                ring
              rw [f1, f2]
              push_cast at hne
              exact hne
        rw [ih (row + dr) (col + dc) hex2]
        simp only [Prod.mk.injEq]
        refine ⟨?_, ?_, ?_, ?_⟩
        · rw [List.range_succ_eq_map, List.map_cons, List.map_map]
          congr 1
          · simp
          · apply List.map_congr_left
            intro a _
            simp only [Function.comp_apply]
            have g1 : row + dr + (a : Int) * dr = row + ((a + 1 : Nat) : Int) * dr := by
              push_cast
              ring
            have g2 : col + dc + (a : Int) * dc = col + ((a + 1 : Nat) : Int) * dc := by
              push_cast
              ring
            rw [g1, g2]
        · congr 1 <;> push_cast <;> ring
        · push_cast
          ring
        · push_cast
          ring
      · rw [if_neg hp, if_neg hp]
        simp

theorem cannon_capture_spec (b : Board) (s : Side) (dr dc : Int) :
    ∀ (n : Nat) (row col : Int),
      (∃ j : Nat, j < n ∧
        b.get (row + (j : Int) * dr) (col + (j : Int) * dc) ≠ P_EE) →
      cannon_capture_loop b s dr dc n row col =
        (if piece_side (b.get (row + (scan_empties b dr dc n row col : Int) * dr)
              (col + (scan_empties b dr dc n row col : Int) * dc)) =
            piece_side_reverse s
         then some ⟨row + (scan_empties b dr dc n row col : Int) * dr,
           col + (scan_empties b dr dc n row col : Int) * dc⟩
         else none) := by
  intro n
  induction n with
  | zero =>
      intro row col hex
      obtain ⟨j, hj, -⟩ := hex
      omega
  | succ n ih =>
      intro row col hex
      rw [cannon_capture_loop, scan_empties]
      by_cases hp : b.get row col = P_EE
      · rw [if_pos hp, if_pos hp]
        have hex2 : ∃ j : Nat, j < n ∧
            b.get (row + dr + (j : Int) * dr) (col + dc + (j : Int) * dc) ≠ P_EE := by
          obtain ⟨j, hj, hne⟩ := hex
          cases j with
          | zero =>
              exfalso
              apply hne
              simpa using hp
          | succ j2 =>
              refine ⟨j2, by omega, ?_⟩
              have f1 : row + dr + (j2 : Int) * dr = row + ((j2 : Int) + 1) * dr := by
                ring
              have f2 : col + dc + (j2 : Int) * dc = col + ((j2 : Int) + 1) * dc := by
                ring
              rw [f1, f2]
              push_cast at hne
              exact hne
        rw [ih (row + dr) (col + dc) hex2]
        have f1 : row + dr + ((scan_empties b dr dc n (row + dr) (col + dc)) : Int) * dr =
            row + (((scan_empties b dr dc n (row + dr) (col + dc)) + 1 : Nat) : Int) * dr := by
          push_cast
          ring
        have f2 : col + dc + ((scan_empties b dr dc n (row + dr) (col + dc)) : Int) * dc =
            col + (((scan_empties b dr dc n (row + dr) (col + dc)) + 1 : Nat) : Int) * dc := by
          push_cast
          ring
        rw [f1, f2]
      · rw [if_neg hp, if_neg hp]
        simp

theorem cell_index_inj (r c dr dc : Int) (hd : dirOk dr dc) (m1 m2 : Nat)
    (h : (⟨r + (m1 : Int) * dr, c + (m1 : Int) * dc⟩ : Pos) =
      ⟨r + (m2 : Int) * dr, c + (m2 : Int) * dc⟩) : m1 = m2 := by
  have h1 : r + (m1 : Int) * dr = r + (m2 : Int) * dr := congrArg Pos.row h
  have h2 : c + (m1 : Int) * dc = c + (m2 : Int) * dc := congrArg Pos.col h
  rcases hd with ⟨ha, hb⟩ | ⟨ha, hb⟩ | ⟨ha, hb⟩ | ⟨ha, hb⟩ <;> subst ha <;>
    subst hb <;> omega

/-- C5: for every well-formed board, cannon cell `(r, c)` of side `s` and
cardinal direction: writing `f` for the step index of the first non-empty
cell (the screen) and `g` for the step index of the first non-empty cell
beyond the screen, the generator emits every empty cell strictly before the
screen as a (non-capturing) destination; if the screen is not the sentinel
it emits the cell at `g` iff that cell holds an opponent piece; the screen
itself is never a destination; and with no screen before the border every
emitted destination is an empty cell (no capture at all). -/
theorem c5_cannon_one_direction_spec (b : Board) (s : Side) (r c dr dc : Int)
    (hwf : b.WF) (hint : interiorPos r c) (hd : dirOk dr dc)
    (hs : piece_side (b.get r c) = s)
    (ht : piece_type (b.get r c) = PieceType.cannon) :
    (∀ k : Nat, 1 ≤ k → k < first_stop b r c dr dc →
      b.get (r + (k : Int) * dr) (c + (k : Int) * dc) = P_EE) ∧
    b.get (r + (first_stop b r c dr dc : Int) * dr)
      (c + (first_stop b r c dr dc : Int) * dc) ≠ P_EE ∧
    (∀ k : Nat, 1 ≤ k → k < first_stop b r c dr dc →
      (⟨⟨r, c⟩, ⟨r + (k : Int) * dr, c + (k : Int) * dc⟩⟩ : Move) ∈
        gen_moves_cannon_one_direction b r c dr dc s) ∧
    (b.get (r + (first_stop b r c dr dc : Int) * dr)
        (c + (first_stop b r c dr dc : Int) * dc) ≠ P_EO →
      (((⟨⟨r, c⟩,
        ⟨r + ((first_stop b r c dr dc +
            first_stop b (r + (first_stop b r c dr dc : Int) * dr)
              (c + (first_stop b r c dr dc : Int) * dc) dr dc : Nat) : Int) * dr,
         c + ((first_stop b r c dr dc +
            first_stop b (r + (first_stop b r c dr dc : Int) * dr)
              (c + (first_stop b r c dr dc : Int) * dc) dr dc : Nat) : Int) * dc⟩⟩ :
          Move) ∈ gen_moves_cannon_one_direction b r c dr dc s) ↔
        piece_side (b.get
          (r + ((first_stop b r c dr dc +
            first_stop b (r + (first_stop b r c dr dc : Int) * dr)
              (c + (first_stop b r c dr dc : Int) * dc) dr dc : Nat) : Int) * dr)
          (c + ((first_stop b r c dr dc +
            first_stop b (r + (first_stop b r c dr dc : Int) * dr)
              (c + (first_stop b r c dr dc : Int) * dc) dr dc : Nat) : Int) * dc)) =
          piece_side_reverse s)) ∧
    ((⟨⟨r, c⟩, ⟨r + (first_stop b r c dr dc : Int) * dr,
        c + (first_stop b r c dr dc : Int) * dc⟩⟩ : Move) ∉
      gen_moves_cannon_one_direction b r c dr dc s) ∧
    (b.get (r + (first_stop b r c dr dc : Int) * dr)
        (c + (first_stop b r c dr dc : Int) * dc) = P_EO →
      ∀ mv ∈ gen_moves_cannon_one_direction b r c dr dc s,
        b.get mv.toPos.row mv.toPos.col = P_EE) := by
  have hex1 := exists_blocker b hwf r c dr dc hint hd
  obtain ⟨hlt1, hemp1, hne1⟩ := scan_empties_spec b dr dc 13 (r + dr) (c + dc) hex1
  have hrw := ride_loop_spec b r c dr dc 13 (r + dr) (c + dc) hex1
  set e1 := scan_empties b dr dc 13 (r + dr) (c + dc) with he1
  have hf : first_stop b r c dr dc = e1 + 1 := rfl
  have hcs1 : r + ((e1 + 1 : Nat) : Int) * dr = r + dr + (e1 : Int) * dr := by
    push_cast
    ring
  have hcs2 : c + ((e1 + 1 : Nat) : Int) * dc = c + dc + (e1 : Int) * dc := by
    push_cast
    ring
  have hout : gen_moves_cannon_one_direction b r c dr dc s =
      (List.range e1).map (fun (k : Nat) =>
        (⟨⟨r, c⟩, ⟨r + dr + (k : Int) * dr, c + dc + (k : Int) * dc⟩⟩ : Move)) ++
      (if b.get (r + dr + (e1 : Int) * dr) (c + dc + (e1 : Int) * dc) ≠ P_EO then
        match cannon_capture_loop b s dr dc 13
            (r + dr + (e1 : Int) * dr + dr) (c + dc + (e1 : Int) * dc + dc) with
        | some pos => [⟨⟨r, c⟩, pos⟩]
        | none => []
       else []) := by
    simp only [gen_moves_cannon_one_direction]
    rw [hrw]
  -- the screen is interior as soon as it is not the sentinel
  have hscreen_int : b.get (r + dr + (e1 : Int) * dr) (c + dc + (e1 : Int) * dc) ≠ P_EO →
      interiorPos (r + dr + (e1 : Int) * dr) (c + dc + (e1 : Int) * dc) := by
    intro hnes
    rw [← hcs1, ← hcs2]
    apply interior_of_path b hwf r c dr dc hint hd (e1 + 1)
    intro j hj1 hj2
    by_cases hjlt : j < e1 + 1
    · have := hemp1 (j - 1) (by omega)
      have g1 : r + dr + ((j - 1 : Nat) : Int) * dr = r + (j : Int) * dr := by
        have : ((j - 1 : Nat) : Int) = (j : Int) - 1 := by omega
        rw [this]
        ring
      have g2 : c + dc + ((j - 1 : Nat) : Int) * dc = c + (j : Int) * dc := by
        have : ((j - 1 : Nat) : Int) = (j : Int) - 1 := by omega
        rw [this]
        ring
      rw [g1, g2] at this
      rw [this]
      decide
    · have hje : j = e1 + 1 := by omega
      subst hje
      rw [← hcs1, ← hcs2] at hnes
      exact hnes
  refine ⟨?_, ?_, ?_, ?_, ?_, ?_⟩
  · -- (1) the cells before the screen are empty
    intro k hk1 hkf
    rw [hf] at hkf
    have := hemp1 (k - 1) (by omega)
    have g1 : r + dr + ((k - 1 : Nat) : Int) * dr = r + (k : Int) * dr := by
      have : ((k - 1 : Nat) : Int) = (k : Int) - 1 := by omega
      rw [this]
      ring
    have g2 : c + dc + ((k - 1 : Nat) : Int) * dc = c + (k : Int) * dc := by
      have : ((k - 1 : Nat) : Int) = (k : Int) - 1 := by omega
      rw [this]
      ring
    rw [g1, g2] at this
    exact this
  · -- (2) the screen cell is non-empty
    rw [hf, hcs1, hcs2]
    exact hne1
  · -- (3) every empty cell before the screen is emitted
    intro k hk1 hkf
    rw [hf] at hkf
    rw [hout]
    refine List.mem_append.2 (Or.inl (List.mem_map.2
      ⟨k - 1, List.mem_range.2 (by omega), ?_⟩))
    have g1 : r + dr + ((k - 1 : Nat) : Int) * dr = r + (k : Int) * dr := by
      have : ((k - 1 : Nat) : Int) = (k : Int) - 1 := by omega
      rw [this]
      ring
    have g2 : c + dc + ((k - 1 : Nat) : Int) * dc = c + (k : Int) * dc := by
      have : ((k - 1 : Nat) : Int) = (k : Int) - 1 := by omega
      rw [this]
      ring
    rw [g1, g2]
  · -- (4) capture beyond the screen iff that cell is opponent-side
    intro hnes
    rw [hf, hcs1, hcs2] at hnes
    have hint2 := hscreen_int hnes
    have hex2 := exists_blocker b hwf (r + dr + (e1 : Int) * dr)
      (c + dc + (e1 : Int) * dc) dr dc hint2 hd
    obtain ⟨hlt2, hemp2, hne2⟩ := scan_empties_spec b dr dc 13
      (r + dr + (e1 : Int) * dr + dr) (c + dc + (e1 : Int) * dc + dc) hex2
    have hcap := cannon_capture_spec b s dr dc 13
      (r + dr + (e1 : Int) * dr + dr) (c + dc + (e1 : Int) * dc + dc) hex2
    set e2 := scan_empties b dr dc 13 (r + dr + (e1 : Int) * dr + dr)
      (c + dc + (e1 : Int) * dc + dc) with he2
    have h1 : r + (first_stop b r c dr dc : Int) * dr = r + dr + (e1 : Int) * dr := by
      rw [hf]
      exact hcs1
    have h2 : c + (first_stop b r c dr dc : Int) * dc = c + dc + (e1 : Int) * dc := by
      rw [hf]
      exact hcs2
    have hg : first_stop b (r + (first_stop b r c dr dc : Int) * dr)
        (c + (first_stop b r c dr dc : Int) * dc) dr dc = e2 + 1 := by
      rw [show first_stop b (r + (first_stop b r c dr dc : Int) * dr)
          (c + (first_stop b r c dr dc : Int) * dc) dr dc =
        scan_empties b dr dc 13 (r + (first_stop b r c dr dc : Int) * dr + dr)
          (c + (first_stop b r c dr dc : Int) * dc + dc) + 1 from rfl]
      rw [h1, h2]
    have hgc1 : r + ((first_stop b r c dr dc +
        first_stop b (r + (first_stop b r c dr dc : Int) * dr)
          (c + (first_stop b r c dr dc : Int) * dc) dr dc : Nat) : Int) * dr =
        r + dr + (e1 : Int) * dr + dr + (e2 : Int) * dr := by
      rw [hg, hf]
      push_cast
      ring
    have hgc2 : c + ((first_stop b r c dr dc +
        first_stop b (r + (first_stop b r c dr dc : Int) * dr)
          (c + (first_stop b r c dr dc : Int) * dc) dr dc : Nat) : Int) * dc =
        c + dc + (e1 : Int) * dc + dc + (e2 : Int) * dc := by
      rw [hg, hf]
      push_cast
      ring
    rw [hgc1, hgc2, hout]
    constructor
    · intro hmem
      rcases List.mem_append.1 hmem with h | h
      · exfalso
        obtain ⟨k, hk, heq⟩ := List.mem_map.1 h
        have hpos : (⟨r + dr + (k : Int) * dr, c + dc + (k : Int) * dc⟩ : Pos) =
            ⟨r + dr + (e1 : Int) * dr + dr + (e2 : Int) * dr,
             c + dc + (e1 : Int) * dc + dc + (e2 : Int) * dc⟩ :=
          congrArg Move.toPos heq
        have g1 : r + dr + (k : Int) * dr = r + ((k + 1 : Nat) : Int) * dr := by
          push_cast
          ring
        have g2 : c + dc + (k : Int) * dc = c + ((k + 1 : Nat) : Int) * dc := by
          push_cast
          ring
        have g3 : r + dr + (e1 : Int) * dr + dr + (e2 : Int) * dr =
            r + ((e1 + e2 + 2 : Nat) : Int) * dr := by
          push_cast
          ring
        have g4 : c + dc + (e1 : Int) * dc + dc + (e2 : Int) * dc =
            c + ((e1 + e2 + 2 : Nat) : Int) * dc := by
          push_cast
          ring
        rw [g1, g2, g3, g4] at hpos
        have := cell_index_inj r c dr dc hd (k + 1) (e1 + e2 + 2) hpos
        have hkr := List.mem_range.1 hk
        omega
      · rw [if_pos hnes, hcap] at h
        by_cases hcon : piece_side (b.get
            (r + dr + (e1 : Int) * dr + dr + (e2 : Int) * dr)
            (c + dc + (e1 : Int) * dc + dc + (e2 : Int) * dc)) =
            piece_side_reverse s
        · exact hcon
        · rw [if_neg hcon] at h
          simp at h
    · intro hside
      rw [hout] at *
      refine List.mem_append.2 (Or.inr ?_)
      rw [if_pos hnes, hcap, if_pos hside]
      simp
  · -- (5) the screen is never a destination
    intro hmem
    rw [hout] at hmem
    rcases List.mem_append.1 hmem with h | h
    · obtain ⟨k, hk, heq⟩ := List.mem_map.1 h
      have hpos : (⟨r + dr + (k : Int) * dr, c + dc + (k : Int) * dc⟩ : Pos) =
          ⟨r + (first_stop b r c dr dc : Int) * dr,
           c + (first_stop b r c dr dc : Int) * dc⟩ :=
        congrArg Move.toPos heq
      have g1 : r + dr + (k : Int) * dr = r + ((k + 1 : Nat) : Int) * dr := by
        push_cast
        ring
      have g2 : c + dc + (k : Int) * dc = c + ((k + 1 : Nat) : Int) * dc := by
        push_cast
        ring
      rw [g1, g2] at hpos
      have := cell_index_inj r c dr dc hd (k + 1) (first_stop b r c dr dc) hpos
      have hkr := List.mem_range.1 hk
      rw [hf] at this
      omega
    · by_cases hnes : b.get (r + dr + (e1 : Int) * dr)
          (c + dc + (e1 : Int) * dc) ≠ P_EO
      · have hint2 := hscreen_int hnes
        have hex2 := exists_blocker b hwf (r + dr + (e1 : Int) * dr)
          (c + dc + (e1 : Int) * dc) dr dc hint2 hd
        have hcap := cannon_capture_spec b s dr dc 13
          (r + dr + (e1 : Int) * dr + dr) (c + dc + (e1 : Int) * dc + dc) hex2
        rw [if_pos hnes, hcap] at h
        set e2 := scan_empties b dr dc 13 (r + dr + (e1 : Int) * dr + dr)
          (c + dc + (e1 : Int) * dc + dc) with he2
        by_cases hside : piece_side (b.get
            (r + dr + (e1 : Int) * dr + dr + (e2 : Int) * dr)
            (c + dc + (e1 : Int) * dc + dc + (e2 : Int) * dc)) =
            piece_side_reverse s
        · rw [if_pos hside] at h
          simp only [List.mem_singleton] at h
          have hpos : (⟨r + (first_stop b r c dr dc : Int) * dr,
              c + (first_stop b r c dr dc : Int) * dc⟩ : Pos) =
              ⟨r + dr + (e1 : Int) * dr + dr + (e2 : Int) * dr,
               c + dc + (e1 : Int) * dc + dc + (e2 : Int) * dc⟩ :=
            congrArg Move.toPos h
          have g3 : r + dr + (e1 : Int) * dr + dr + (e2 : Int) * dr =
              r + ((e1 + e2 + 2 : Nat) : Int) * dr := by
            push_cast
            ring
          have g4 : c + dc + (e1 : Int) * dc + dc + (e2 : Int) * dc =
              c + ((e1 + e2 + 2 : Nat) : Int) * dc := by
            push_cast
            ring
          rw [g3, g4] at hpos
          have := cell_index_inj r c dr dc hd (first_stop b r c dr dc)
            (e1 + e2 + 2) hpos
          rw [hf] at this
          omega
        · rw [if_neg hside] at h
          simp at h
      · rw [if_neg hnes] at h
        simp at h
  · -- (6) with no screen before the border only empty destinations are emitted
    intro hsc mv hmem
    rw [hf, hcs1, hcs2] at hsc
    rw [hout] at hmem
    rcases List.mem_append.1 hmem with h | h
    · obtain ⟨k, hk, heq⟩ := List.mem_map.1 h
      rw [← heq]
      exact hemp1 k (List.mem_range.1 hk)
    · rw [if_neg (fun hcon => hcon hsc)] at h
      simp at h

set_option maxRecDepth 8192 in
theorem c5_witness :
    openingBoard.WF ∧ interiorPos 4 3 ∧ dirOk 1 0 ∧
    piece_side (openingBoard.get 4 3) = Side.up ∧
    piece_type (openingBoard.get 4 3) = PieceType.cannon ∧
    (⟨⟨4, 3⟩, ⟨4 + (first_stop openingBoard 4 3 1 0 : Int) * 1,
        3 + (first_stop openingBoard 4 3 1 0 : Int) * 0⟩⟩ : Move) ∉
      gen_moves_cannon_one_direction openingBoard 4 3 1 0 Side.up :=
  ⟨by decide, by decide, Or.inr (Or.inl ⟨rfl, rfl⟩), by decide, by decide,
    (c5_cannon_one_direction_spec openingBoard Side.up 4 3 1 0 (by decide) (by decide)
      (Or.inr (Or.inl ⟨rfl, rfl⟩)) (by decide) (by decide)).2.2.2.2.1⟩
